import Mathlib

/-!
Verification of the forecast-synthesis engine of the metac-bot-template
repository: the text-extraction layer (src/utils/extractors.py), the
multiple-choice normalization and numeric CDF synthesis
(src/forecasting/multiple_choice.py, src/forecasting/numeric.py), and the
cross-run aggregation (numpy median / arithmetic mean).

Modelling conventions:
* Python floats are modelled by exact rationals `ℚ`; where float special
  values (inf, -inf, nan) matter (multiple-choice normalization), an
  extended type `PF` with Python's comparison/arithmetic rules is used.
* Python exceptions are modelled by `Except PyErr`; each `PyErr`
  constructor corresponds to one raise site / builtin exception kind.
* Python dicts are modelled as association lists with first-occurrence
  update (updating an existing key keeps its position, inserting a fresh
  key appends), matching insertion-order semantics.
* `re.findall` is modelled by explicit scanners over `List Char` that
  reproduce the leftmost, greedy, backtracking semantics of the concrete
  patterns appearing in the source.
-/

/-- Python exception kinds raised by the modelled code.
`valueError` is the `ValueError` raised by the three extractors on
extraction failure; `valueErrorLengthMismatch` is the distinct
`ValueError` raise site in `_generate_multiple_choice_forecast` for an
option/probability count mismatch; `zeroDivisionError` is Python's
`ZeroDivisionError` from float division by zero; `indexError` is the
`IndexError` from indexing `[-1]` into an empty list. -/
inductive PyErr
  | valueError
  | valueErrorLengthMismatch
  | zeroDivisionError
  | indexError
  deriving DecidableEq, Repr

instance {ε α : Type} [DecidableEq ε] [DecidableEq α] : DecidableEq (Except ε α) := fun x y =>
  match x, y with
  | .ok a, .ok b =>
    if h : a = b then .isTrue (by rw [h]) else .isFalse (by intro hc; cases hc; exact h rfl)
  | .error a, .error b =>
    if h : a = b then .isTrue (by rw [h]) else .isFalse (by intro hc; cases hc; exact h rfl)
  | .ok _, .error _ => .isFalse (by intro hc; cases hc)
  | .error _, .ok _ => .isFalse (by intro hc; cases hc)

/-- Python `int(x)` on a float: truncation toward zero (the numerator
divided by the positive denominator, rounding toward zero). -/
def pyInt (q : ℚ) : ℤ := q.num.tdiv q.den

/-- Python dict assignment `d[k] = v`: replace the value at the first
occurrence of `k`, or append `(k, v)` if `k` is absent. -/
def pySet {κ α : Type} [DecidableEq κ] : List (κ × α) → κ → α → List (κ × α)
  | [], k, v => [(k, v)]
  | p :: tl, k, v => if p.1 = k then (k, v) :: tl else p :: pySet tl k v

/-- Python dict lookup `d[k]` (as an `Option`). -/
def pyGet {κ α : Type} [DecidableEq κ] (d : List (κ × α)) (k : κ) : Option α :=
  (d.find? (fun p => p.1 = k)).map (fun p => p.2)

/-- Python dict lookup with a default (used where the key is provably
present, so the default is never reached). -/
def pyGetD {κ α : Type} [DecidableEq κ] (d : List (κ × α)) (k : κ) (v0 : α) : α :=
  (pyGet d k).getD v0

/-- The keys of a modelled dict, in insertion order. -/
def pyKeys {κ α : Type} (d : List (κ × α)) : List κ := d.map Prod.fst

/-- Python `max` over a non-empty list (left fold; `0` stands in for the
`ValueError` on an empty argument, which callers rule out). -/
def pyMaxD (l : List ℚ) : ℚ :=
  match l with
  | [] => 0
  | h :: t => t.foldl max h

/-- Python `min` over a non-empty list (left fold; `0` stands in for the
`ValueError` on an empty argument, which callers rule out). -/
def pyMinD (l : List ℚ) : ℚ :=
  match l with
  | [] => 0
  | h :: t => t.foldl min h

/-- Python `text.split("\n")`. -/
def pyLines (s : String) : List String := s.splitOn "\n"

/-- Substring test (`sub in s` for a non-empty literal `sub`). -/
def containsSub (s sub : String) : Bool := (s.splitOn sub).length > 1

/-- Digits of a numeric token folded into a natural number
(Python `int` of a digit string). -/
def parseDigits (ds : List Char) : ℕ :=
  ds.foldl (fun n c => 10 * n + (c.toNat - 48)) 0

/-- The magnitude of a sign-stripped, comma-stripped numeric token:
the integer digits, plus the fraction after a decimal dot if one is
present. -/
def parseUnsigned (t1 : List Char) : ℚ :=
  match t1.dropWhile Char.isDigit with
  | c :: frac =>
    if c = '.' then
      (parseDigits (t1.takeWhile Char.isDigit) : ℚ) +
        (parseDigits frac : ℚ) / ((10 : ℚ) ^ frac.length)
    else (parseDigits (t1.takeWhile Char.isDigit) : ℚ)
  | [] => (parseDigits (t1.takeWhile Char.isDigit) : ℚ)

/-- Python numeric conversion of a matched token: commas removed, then
`float(s)` if a `'.'` is present else `int(s)`; both are exact here. -/
def parseToken (t : List Char) : ℚ :=
  if t.head? = some '-' then -parseUnsigned (t.tail.filter (fun c => c ≠ ','))
  else parseUnsigned (t.filter (fun c => c ≠ ','))

/-- Greedy match of the regex piece matching repeated groups of a comma
followed by exactly three digits; returns (consumed, rest). -/
def commaGroups (cs : List Char) : List Char × List Char :=
  match cs with
  | c0 :: d1 :: d2 :: d3 :: rest =>
    if c0 = ',' && d1.isDigit && d2.isDigit && d3.isDigit then
      let p := commaGroups rest
      (c0 :: d1 :: d2 :: d3 :: p.1, p.2)
    else ([], cs)
  | _ => ([], cs)

/-- Greedy match of an optional decimal part: a dot followed by at least
one digit, or nothing; returns (consumed, rest). -/
def decPart (cs : List Char) : List Char × List Char :=
  match cs with
  | [] => ([], [])
  | c :: rest =>
    if c = '.' then
      let ds := rest.takeWhile Char.isDigit
      if ds = [] then ([], cs) else (c :: ds, rest.dropWhile Char.isDigit)
    else ([], cs)

/-- Match of the unsigned numeric core used by both extractor regexes
(digits, optional comma-separated thousands groups, optional decimal
part) at the current position: greedy digits, then comma groups, then an
optional decimal part. Returns the matched text and the rest. -/
def matchCore (cs : List Char) : Option (List Char × List Char) :=
  let ds := cs.takeWhile Char.isDigit
  if ds = [] then none
  else
    let g := commaGroups (cs.dropWhile Char.isDigit)
    let d := decPart g.2
    some (ds ++ g.1 ++ d.1, d.2)

lemma commaGroups_length_le (cs : List Char) : (commaGroups cs).2.length ≤ cs.length := by
  induction cs using commaGroups.induct with
  | case1 c0 d1 d2 d3 rest h ih =>
    rw [commaGroups]
    simp only [h, if_true, List.length_cons]
    omega
  | case2 c0 d1 d2 d3 rest h =>
    rw [commaGroups]
    simp [h]
  | case3 cs h =>
    rw [commaGroups.eq_def]
    split
    · exact (h _ _ _ _ _ rfl).elim
    · simp

lemma dropWhile_length_le {p : Char → Bool} (cs : List Char) :
    (cs.dropWhile p).length ≤ cs.length := by
  induction cs with
  | nil => simp
  | cons h t ih =>
    by_cases hp : p h
    · simp only [List.dropWhile_cons, hp, if_true]
      exact le_trans ih (by simp)
    · simp [List.dropWhile_cons, hp]

lemma decPart_length_le (cs : List Char) : (decPart cs).2.length ≤ cs.length := by
  rcases cs with _ | ⟨c, tl⟩
  · simp [decPart]
  · rw [decPart]
    by_cases h : c = '.'
    · by_cases he : tl.takeWhile Char.isDigit = []
      · simp [h, he]
      · simp only [h, he, if_true, if_false]
        exact le_trans (dropWhile_length_le tl) (by simp)
    · simp [h]

lemma takeWhile_ne_nil_length {p : Char → Bool} {cs : List Char}
    (h : cs.takeWhile p ≠ []) : (cs.dropWhile p).length < cs.length := by
  have hlen := congrArg List.length (List.takeWhile_append_dropWhile (p := p) (l := cs))
  simp only [List.length_append] at hlen
  have hpos : 0 < (cs.takeWhile p).length := by
    cases he : cs.takeWhile p with
    | nil => exact absurd he h
    | cons a b => simp [he]
  omega

lemma matchCore_rest_lt {cs : List Char} {p : List Char × List Char}
    (h : matchCore cs = some p) : p.2.length < cs.length := by
  unfold matchCore at h
  by_cases hd : cs.takeWhile Char.isDigit = []
  · simp [hd] at h
  · simp only [hd, if_false, Option.some.injEq] at h
    have h2 : p.2 = (decPart (commaGroups (cs.dropWhile Char.isDigit)).2).2 := by
      rw [← h]
    calc p.2.length
        = (decPart (commaGroups (cs.dropWhile Char.isDigit)).2).2.length := by rw [h2]
      _ ≤ (commaGroups (cs.dropWhile Char.isDigit)).2.length := decPart_length_le _
      _ ≤ (cs.dropWhile Char.isDigit).length := commaGroups_length_le _
      _ < cs.length := takeWhile_ne_nil_length hd

/-- Match of the signed number regex of `extract_option_probabilities`
(optional minus sign, then the numeric core) at the current position. -/
def matchSignedNum (cs : List Char) : Option (List Char × List Char) :=
  match cs with
  | [] => none
  | c :: rest =>
    if c = '-' then (matchCore rest).map (fun p => (c :: p.1, p.2))
    else matchCore cs

lemma matchSignedNum_rest_lt {cs : List Char} {p : List Char × List Char}
    (h : matchSignedNum cs = some p) : p.2.length < cs.length := by
  rcases cs with _ | ⟨c, rest⟩
  · simp [matchSignedNum.eq_def] at h
  · rw [matchSignedNum.eq_def] at h
    by_cases hc : c = '-'
    · simp only [hc, if_true] at h
      rcases hm : matchCore rest with _ | q
      · rw [hm] at h; simp at h
      · rw [hm] at h
        simp only [Option.map_some', Option.some.injEq] at h
        have := matchCore_rest_lt hm
        have hp2 : p.2 = q.2 := by rw [← h]
        rw [hp2]
        simp only [List.length_cons]
        omega
    · simp only [hc, if_false] at h
      exact matchCore_rest_lt h

/-- The scanning loop of `re.findall` for the signed number regex of
`extract_option_probabilities`: leftmost non-overlapping matches,
advancing one character on failure. The structural fuel argument makes
the function kernel-computable; `findNumbers` supplies fuel equal to
the input length, which `findNumbersF_eq` proves sufficient. -/
def findNumbersF : ℕ → List Char → List (List Char)
  | 0, _ => []
  | _ + 1, [] => []
  | fuel + 1, c :: rest =>
    match matchSignedNum (c :: rest) with
    | some p => p.1 :: findNumbersF fuel p.2
    | none => findNumbersF fuel rest

/-- `re.findall` for the signed number regex of
`extract_option_probabilities`. -/
def findNumbers (cs : List Char) : List (List Char) := findNumbersF cs.length cs

lemma findNumbersF_fuel (fuel fuel' : ℕ) (cs : List Char)
    (h : cs.length ≤ fuel) (h' : cs.length ≤ fuel') :
    findNumbersF fuel cs = findNumbersF fuel' cs := by
  induction fuel using Nat.strong_induction_on generalizing cs fuel' with
  | _ fuel ih =>
    match fuel, cs with
    | 0, cs =>
      rcases cs with _ | ⟨c, r⟩
      · cases fuel' <;> rfl
      · simp at h
    | fuel + 1, [] =>
      cases fuel' with
      | zero => rfl
      | succ n => rfl
    | fuel + 1, c :: rest =>
      cases fuel' with
      | zero => simp at h'
      | succ n =>
        rw [findNumbersF, findNumbersF]
        simp only [List.length_cons] at h h'
        cases hm : matchSignedNum (c :: rest) with
        | some p =>
          have hlt := matchSignedNum_rest_lt hm
          simp only [List.length_cons] at hlt
          show p.1 :: findNumbersF fuel p.2 = p.1 :: findNumbersF n p.2
          rw [ih fuel (by omega) n p.2 (by omega) (by omega)]
        | none =>
          show findNumbersF fuel rest = findNumbersF n rest
          rw [ih fuel (by omega) n rest (by omega) (by omega)]

/-- The fuel supplied by `findNumbers` is sufficient: the function
satisfies the natural recursion of the scanning loop. -/
lemma findNumbers_eq (cs : List Char) :
    findNumbers cs =
      match matchSignedNum cs with
      | some p => p.1 :: findNumbers p.2
      | none =>
        match cs with
        | [] => []
        | _ :: rest => findNumbers rest := by
  unfold findNumbers
  cases cs with
  | nil => rfl
  | cons c rest =>
    rw [List.length_cons, findNumbersF]
    cases hm : matchSignedNum (c :: rest) with
    | some p =>
      have hlt := matchSignedNum_rest_lt hm
      simp only [List.length_cons] at hlt
      show p.1 :: findNumbersF rest.length p.2 = p.1 :: findNumbersF p.2.length p.2
      rw [findNumbersF_fuel rest.length p.2.length p.2 (by omega) (le_refl _)]
    | none =>
      show findNumbersF rest.length rest = findNumbersF rest.length rest
      rfl

/-- Match of the `extract_percentiles` number regex at the current
position. First alternative: a minus sign, then any run of characters
that are neither digits nor minus signs (this absorbs the regex's
space/filler groups), then the numeric core, capturing only the core
(the sign is not part of the captured group). Second alternative: the
bare numeric core. The captured text and the rest are returned. -/
def matchPercNum (cs : List Char) : Option (List Char × List Char) :=
  match cs with
  | [] => none
  | c :: rest =>
    if c = '-' then matchCore (rest.dropWhile (fun d => !d.isDigit && d ≠ '-'))
    else matchCore cs

lemma matchPercNum_rest_lt {cs : List Char} {p : List Char × List Char}
    (h : matchPercNum cs = some p) : p.2.length < cs.length := by
  rcases cs with _ | ⟨c, rest⟩
  · simp [matchPercNum.eq_def] at h
  · rw [matchPercNum.eq_def] at h
    by_cases hc : c = '-'
    · simp only [hc, if_true] at h
      have h1 := matchCore_rest_lt h
      have h2 := dropWhile_length_le (p := fun d => !d.isDigit && d ≠ '-') rest
      simp only [List.length_cons]
      omega
    · simp only [hc, if_false] at h
      exact matchCore_rest_lt h

/-- The scanning loop of `re.findall` for the `extract_percentiles`
number regex: the list of captured groups (always unsigned digit
cores), left to right; structural fuel as in `findNumbersF`. -/
def findPercNumbersF : ℕ → List Char → List (List Char)
  | 0, _ => []
  | _ + 1, [] => []
  | fuel + 1, c :: rest =>
    match matchPercNum (c :: rest) with
    | some p => p.1 :: findPercNumbersF fuel p.2
    | none => findPercNumbersF fuel rest

/-- `re.findall` for the `extract_percentiles` number regex. -/
def findPercNumbers (cs : List Char) : List (List Char) :=
  findPercNumbersF cs.length cs

lemma findPercNumbersF_fuel (fuel fuel' : ℕ) (cs : List Char)
    (h : cs.length ≤ fuel) (h' : cs.length ≤ fuel') :
    findPercNumbersF fuel cs = findPercNumbersF fuel' cs := by
  induction fuel using Nat.strong_induction_on generalizing cs fuel' with
  | _ fuel ih =>
    match fuel, cs with
    | 0, cs =>
      rcases cs with _ | ⟨c, r⟩
      · cases fuel' <;> rfl
      · simp at h
    | fuel + 1, [] =>
      cases fuel' with
      | zero => rfl
      | succ n => rfl
    | fuel + 1, c :: rest =>
      cases fuel' with
      | zero => simp at h'
      | succ n =>
        rw [findPercNumbersF, findPercNumbersF]
        simp only [List.length_cons] at h h'
        cases hm : matchPercNum (c :: rest) with
        | some p =>
          have hlt := matchPercNum_rest_lt hm
          simp only [List.length_cons] at hlt
          show p.1 :: findPercNumbersF fuel p.2 = p.1 :: findPercNumbersF n p.2
          rw [ih fuel (by omega) n p.2 (by omega) (by omega)]
        | none =>
          show findPercNumbersF fuel rest = findPercNumbersF n rest
          rw [ih fuel (by omega) n rest (by omega) (by omega)]

/-- The fuel supplied by `findPercNumbers` is sufficient. -/
lemma findPercNumbers_eq (cs : List Char) :
    findPercNumbers cs =
      match matchPercNum cs with
      | some p => p.1 :: findPercNumbers p.2
      | none =>
        match cs with
        | [] => []
        | _ :: rest => findPercNumbers rest := by
  unfold findPercNumbers
  cases cs with
  | nil => rfl
  | cons c rest =>
    rw [List.length_cons, findPercNumbersF]
    cases hm : matchPercNum (c :: rest) with
    | some p =>
      have hlt := matchPercNum_rest_lt hm
      simp only [List.length_cons] at hlt
      show p.1 :: findPercNumbersF rest.length p.2 = p.1 :: findPercNumbersF p.2.length p.2
      rw [findPercNumbersF_fuel rest.length p.2.length p.2 (by omega) (le_refl _)]
    | none =>
      show findPercNumbersF rest.length rest = findPercNumbersF rest.length rest
      rfl

/-- `re.findall` for the binary-probability regex (an integer digit run
immediately followed by a percent sign): values of all matches, left to
right. A digit run not followed by a percent sign can produce no match
anywhere inside it, so the scanner skips past it. -/
def findPercentMatchesF : ℕ → List Char → List ℕ
  | 0, _ => []
  | _ + 1, [] => []
  | fuel + 1, c :: rest =>
    if c.isDigit then
      match rest.dropWhile Char.isDigit with
      | c2 :: r2 =>
        if c2 = '%' then
          parseDigits (c :: rest.takeWhile Char.isDigit) :: findPercentMatchesF fuel r2
        else findPercentMatchesF fuel (c2 :: r2)
      | [] => findPercentMatchesF fuel []
    else findPercentMatchesF fuel rest

/-- `re.findall` for the binary-probability regex, with fuel as in
`findNumbersF`. -/
def findPercentMatches (cs : List Char) : List ℕ :=
  findPercentMatchesF cs.length cs

lemma findPercentMatchesF_fuel (fuel fuel' : ℕ) (cs : List Char)
    (h : cs.length ≤ fuel) (h' : cs.length ≤ fuel') :
    findPercentMatchesF fuel cs = findPercentMatchesF fuel' cs := by
  induction fuel using Nat.strong_induction_on generalizing cs fuel' with
  | _ fuel ih =>
    match fuel, cs with
    | 0, cs =>
      rcases cs with _ | ⟨c, r⟩
      · cases fuel' <;> rfl
      · simp at h
    | fuel + 1, [] =>
      cases fuel' with
      | zero => rfl
      | succ n => rfl
    | fuel + 1, c :: rest =>
      cases fuel' with
      | zero => simp at h'
      | succ n =>
        rw [findPercentMatchesF, findPercentMatchesF]
        simp only [List.length_cons] at h h'
        have hdw := dropWhile_length_le (p := Char.isDigit) rest
        by_cases hc : c.isDigit
        · simp only [hc, if_true]
          cases hd : rest.dropWhile Char.isDigit with
          | nil =>
            show findPercentMatchesF fuel [] = findPercentMatchesF n []
            rw [ih fuel (by omega) n [] (by simp) (by simp)]
          | cons c2 r2 =>
            have hlen := congrArg List.length hd
            simp only [List.length_cons] at hlen
            rw [hd] at hdw
            simp only [List.length_cons] at hdw
            show (if c2 = '%' then
                parseDigits (c :: rest.takeWhile Char.isDigit) :: findPercentMatchesF fuel r2
              else findPercentMatchesF fuel (c2 :: r2)) =
              (if c2 = '%' then
                parseDigits (c :: rest.takeWhile Char.isDigit) :: findPercentMatchesF n r2
              else findPercentMatchesF n (c2 :: r2))
            by_cases h2 : c2 = '%'
            · simp only [h2, if_true]
              rw [ih fuel (by omega) n r2 (by omega) (by omega)]
            · simp only [h2, if_false]
              rw [ih fuel (by omega) n (c2 :: r2) (by simp; omega) (by simp; omega)]
        · simp only [hc, Bool.false_eq_true, if_false]
          rw [ih fuel (by omega) n rest (by omega) (by omega)]

/-- The fuel supplied by `findPercentMatches` is sufficient. -/
lemma findPercentMatches_eq (cs : List Char) :
    findPercentMatches cs =
      match cs with
      | [] => []
      | c :: rest =>
        if c.isDigit then
          match rest.dropWhile Char.isDigit with
          | c2 :: r2 =>
            if c2 = '%' then
              parseDigits (c :: rest.takeWhile Char.isDigit) :: findPercentMatches r2
            else findPercentMatches (c2 :: r2)
          | [] => findPercentMatches []
        else findPercentMatches rest := by
  unfold findPercentMatches
  cases cs with
  | nil => rfl
  | cons c rest =>
    rw [List.length_cons, findPercentMatchesF]
    have hdw := dropWhile_length_le (p := Char.isDigit) rest
    by_cases hc : c.isDigit
    · simp only [hc, if_true]
      cases hd : rest.dropWhile Char.isDigit with
      | nil =>
        show findPercentMatchesF rest.length [] = findPercentMatchesF 0 []
        rw [findPercentMatchesF_fuel rest.length 0 [] (by simp) (by simp)]
      | cons c2 r2 =>
        have hlen := congrArg List.length hd
        simp only [List.length_cons] at hlen
        rw [hd] at hdw
        simp only [List.length_cons] at hdw
        show (if c2 = '%' then
            parseDigits (c :: rest.takeWhile Char.isDigit) :: findPercentMatchesF rest.length r2
          else findPercentMatchesF rest.length (c2 :: r2)) =
          (if c2 = '%' then
            parseDigits (c :: rest.takeWhile Char.isDigit) :: findPercentMatchesF r2.length r2
          else findPercentMatchesF (c2 :: r2).length (c2 :: r2))
        by_cases h2 : c2 = '%'
        · simp only [h2, if_true]
          rw [findPercentMatchesF_fuel rest.length r2.length r2 (by omega) (le_refl _)]
        · simp only [h2, if_false]
          rw [findPercentMatchesF_fuel rest.length (c2 :: r2).length (c2 :: r2) (by simp; omega) (le_refl _)]
    · simp only [hc, Bool.false_eq_true, if_false]

/-- `extract_probability_percentage` (src/utils/extractors.py): the last
regex match of an integer immediately followed by a percent sign,
clamped to [1, 99] and divided by 100; `ValueError` if there is none. -/
def extract_probability_percentage (forecast_text : String) : Except PyErr ℚ :=
  match (findPercentMatches forecast_text.toList).getLast? with
  | some n => .ok (((min 99 (max 1 n) : ℕ) : ℚ) / 100)
  | none => .error .valueError

/-- The line filter of `extract_percentiles`: the regex matches a line
containing the literal text Percentile or percentile. -/
def percentileLineMatch (line : String) : Bool :=
  containsSub line "Percentile" || containsSub line "percentile"

/-- One loop iteration of `extract_percentiles`: for a matching line
with more than one extracted number, the pair of the first number and
the last number, the latter replaced by minus its absolute value when
the text after the last colon of the line contains a minus sign. -/
def linePair (line : String) : Option (ℚ × ℚ) :=
  if percentileLineMatch line then
    if 1 < ((findPercNumbers line.toList).map parseToken).length then
      some (((findPercNumbers line.toList).map parseToken).headD 0,
        if ((line.splitOn ":").getLastD "").contains '-' then
          -|((findPercNumbers line.toList).map parseToken).getLastD 0|
        else ((findPercNumbers line.toList).map parseToken).getLastD 0)
    else none
  else none

/-- The dict-building loop of `extract_percentiles`: the per-line
pairs, folded into a dict keyed by the truncated first number. -/
def percentileDict (forecast_text : String) : List (ℚ × ℚ) :=
  ((pyLines forecast_text).filterMap linePair).foldl
    (fun d p => pySet d ((pyInt p.1 : ℤ) : ℚ) p.2) []

/-- `extract_percentiles` (src/utils/extractors.py): per-line pairs
folded into a dict keyed by the truncated first number; `ValueError`
when the dict is empty. -/
def extract_percentiles (forecast_text : String) : Except PyErr (List (ℚ × ℚ)) :=
  if 0 < (percentileDict forecast_text).length then .ok (percentileDict forecast_text)
  else .error .valueError

/-- Python `l[-n:]` for a natural `n`: the last `n` elements, except
that `n = 0` yields the whole list (`-0` is `0`). -/
def pySliceLast {α : Type} (l : List α) (n : ℕ) : List α :=
  if n = 0 then l else l.drop (l.length - n)

/-- The collection loop of `extract_option_probabilities`: the last
number of every line that has at least one, in document order. -/
def optionLineResults (forecast_text : String) : List ℚ :=
  (pyLines forecast_text).filterMap
    (fun line => ((findNumbers line.toList).map parseToken).getLast?)

/-- `extract_option_probabilities` (src/utils/extractors.py): the last
number of every line that has one, in document order, sliced to the
last `num_options` entries; `ValueError` when fewer were collected. -/
def extract_option_probabilities (forecast_text : String) (num_options : ℕ) :
    Except PyErr (List ℚ) :=
  if num_options ≤ (optionLineResults forecast_text).length then
    .ok (pySliceLast (optionLineResults forecast_text) num_options)
  else .error .valueError

/-- A Python float value, modelled exactly: a finite rational, one of
the two infinities, or nan. Rounding of finite arithmetic is not
modelled (finite results are exact rationals); the propagation rules
for the special values follow IEEE-754 as exposed by Python. -/
inductive PF
  | fin (q : ℚ)
  | inf
  | ninf
  | nan
  deriving DecidableEq, Repr

/-- Python `<` on floats: nan is incomparable with everything. -/
def PF.lt : PF → PF → Bool
  | .fin a, .fin b => a < b
  | .fin _, .inf => true
  | .ninf, .fin _ => true
  | .ninf, .inf => true
  | _, _ => false

/-- Python `min(a, b)`: `b if b < a else a`. -/
def pyMinPF (a b : PF) : PF := if PF.lt b a then b else a

/-- Python `max(a, b)`: `b if b > a else a`. -/
def pyMaxPF (a b : PF) : PF := if PF.lt a b then b else a

/-- Python float addition. -/
def PF.add : PF → PF → PF
  | .fin a, .fin b => .fin (a + b)
  | .fin _, .inf => .inf
  | .inf, .fin _ => .inf
  | .inf, .inf => .inf
  | .fin _, .ninf => .ninf
  | .ninf, .fin _ => .ninf
  | .ninf, .ninf => .ninf
  | .inf, .ninf => .nan
  | .ninf, .inf => .nan
  | _, _ => .nan

/-- Python float subtraction. -/
def PF.sub : PF → PF → PF
  | .fin a, .fin b => .fin (a - b)
  | .fin _, .inf => .ninf
  | .inf, .fin _ => .inf
  | .inf, .ninf => .inf
  | .fin _, .ninf => .inf
  | .ninf, .fin _ => .ninf
  | .ninf, .inf => .ninf
  | .inf, .inf => .nan
  | .ninf, .ninf => .nan
  | _, _ => .nan

/-- Python float division; any division by (finite) zero raises
`ZeroDivisionError`. The sign of a zero is not tracked (a finite
quotient over an infinity is returned as plain 0). -/
def PF.div (a b : PF) : Except PyErr PF :=
  if b = .fin 0 then .error .zeroDivisionError
  else .ok (match a, b with
    | .nan, _ => .nan
    | _, .nan => .nan
    | .fin a, .fin b => .fin (a / b)
    | .fin _, .inf => .fin 0
    | .fin _, .ninf => .fin 0
    | .inf, .fin b => if 0 < b then .inf else .ninf
    | .ninf, .fin b => if 0 < b then .ninf else .inf
    | _, _ => .nan)

/-- Python `sum(l)` on floats (left fold starting at integer 0). -/
def pySumPF (l : List PF) : PF := l.foldl PF.add (.fin 0)

/-- A Python list comprehension whose body may raise: elements are
produced left to right and the first exception propagates. -/
def exceptMapM (f : PF → Except PyErr PF) : List PF → Except PyErr (List PF)
  | [] => .ok []
  | x :: xs => do
    let y ← f x
    let ys ← exceptMapM f xs
    .ok (y :: ys)

/-- The clamp `max(min(x, 0.99), 0.01)` of `_normalize_list`. -/
def clampPF (x : PF) : PF := pyMaxPF (pyMinPF x (.fin (99 / 100))) (.fin (1 / 100))

/-- `MultipleChoiceForecaster._normalize_list`
(src/forecasting/multiple_choice.py): clamp every entry to
[0.01, 0.99] with `max(min(x, 0.99), 0.01)`, divide by the sum of the
clamped entries, then add `1.0 - sum(normalized)` to the last entry
(`IndexError` on an empty list, `ZeroDivisionError` if a division by
finite zero occurs). -/
def normalize_list (float_list : List PF) : Except PyErr (List PF) := do
  let clamped_list := float_list.map clampPF
  let total_sum := pySumPF clamped_list
  let normalized_list ← exceptMapM (fun x => PF.div x total_sum) clamped_list
  let adjustment := PF.sub (.fin 1) (pySumPF normalized_list)
  match normalized_list with
  | [] => .error .indexError
  | _ => .ok (normalized_list.dropLast
      ++ [PF.add (normalized_list.getLastD (.fin 0)) adjustment])

/-- The tail of `_normalize_list` after the divisions: the
floating-point residual correction added to the last entry. -/
def adjustLast (nl : List PF) : Except PyErr (List PF) :=
  match nl with
  | [] => .error .indexError
  | _ => .ok (nl.dropLast ++ [PF.add (nl.getLastD (.fin 0)) (PF.sub (.fin 1) (pySumPF nl))])

lemma except_bind_ok {α β : Type} (a : α) (f : α → Except PyErr β) :
    (Except.ok a >>= f) = f a := rfl

lemma except_bind_error {α β : Type} (e : PyErr) (f : α → Except PyErr β) :
    ((Except.error e : Except PyErr α) >>= f) = .error e := rfl

lemma normalize_list_def (l : List PF) :
    normalize_list l =
      exceptMapM (fun x => PF.div x (pySumPF (l.map clampPF))) (l.map clampPF) >>=
        adjustLast := rfl

/-- The probability list computed by
`MultipleChoiceForecaster._generate_multiple_choice_forecast`
(src/forecasting/multiple_choice.py) before it is zipped with the
option labels: a `ValueError` if the option and probability counts
differ, otherwise each score divided by the score sum (the first
potential `ZeroDivisionError`) and the result of `_normalize_list`. -/
def forecastProbs (options : List String) (option_probabilities : List PF) :
    Except PyErr (List PF) :=
  if options.length ≠ option_probabilities.length then .error .valueErrorLengthMismatch
  else do
    let total_sum := pySumPF option_probabilities
    let decimal_list ← exceptMapM (fun x => PF.div x total_sum) option_probabilities
    normalize_list decimal_list

/-- `MultipleChoiceForecaster._generate_multiple_choice_forecast`: the
final dict mapping each option label to its normalized probability
(built with Python dict-comprehension semantics, so a repeated label
keeps the last value). -/
def generate_multiple_choice_forecast (options : List String)
    (option_probabilities : List PF) : Except PyErr (List (String × PF)) := do
  let probs ← forecastProbs options option_probabilities
  .ok ((options.zip probs).foldl (fun d p => pySet d p.1 p.2) [])

/-- `np.median` of a list of floats (as used by
`BinaryForecaster.forecast` and, per grid index, by
`NumericForecaster.forecast`): the middle element of the sorted list,
or the mean of the two middle elements for an even length. The empty
case (numpy yields nan) is ruled out by callers. -/
def npMedian (l : List ℚ) : ℚ :=
  let s := l.insertionSort (· ≤ ·)
  if l.length % 2 = 1 then s.getD (l.length / 2) 0
  else (s.getD (l.length / 2 - 1) 0 + s.getD (l.length / 2) 0) / 2

/-- `np.median(np.array(cdfs), axis=0)` in `NumericForecaster.forecast`:
the elementwise median over the runs' CDFs, each of length `size`. -/
def median_cdf (cdfs : List (List ℚ)) (size : ℕ) : List ℚ :=
  (List.range size).map (fun j => npMedian (cdfs.map (fun c => c.getD j 0)))

/-- The multiple-choice aggregation loop of
`MultipleChoiceForecaster.forecast`: for each option label, the
arithmetic mean over the runs of that option's probability (a run's
dict is looked up at the label; the lookup default stands in for the
`KeyError` that cannot occur on the forecast path). -/
def mc_aggregate (options : List String) (dicts : List (List (String × ℚ))) :
    List (String × ℚ) :=
  options.map (fun o =>
    (o, (dicts.map (fun d => pyGetD d o 0)).sum / ((dicts.map (fun d => pyGetD d o 0)).length : ℚ)))

/-- Lexicographic comparison of pairs, as Python compares tuples
(used by `sorted` on dict items). -/
abbrev pairLe (a b : ℚ × ℚ) : Prop :=
  a.1 < b.1 ∨ (a.1 = b.1 ∧ a.2 ≤ b.2)

/-- Python `sorted` on a dict's items. Python's sort is a stable sort
under the lexicographic tuple order; since that order is total and
antisymmetric on pairs, every sort produces the same list, so the
structural insertion sort used here agrees with it. The same argument
applies to the ascending sort inside `npMedian`. -/
def pySortPairs (l : List (ℚ × ℚ)) : List (ℚ × ℚ) := l.insertionSort pairLe

/-- The per-query-point body of
`NumericForecaster._linear_interpolation` (src/forecasting/numeric.py):
an exact hit returns the stored value at the first matching index; an
out-of-range point returns the first/last stored value (the defaults
stand in for the `IndexError` on an empty table, which callers rule
out); otherwise linear interpolation between the two neighbours. The
index `i` is the loop counter after `while i < len and known_x[i] < x`. -/
def liOne (sorted_pairs : List (ℚ × ℚ)) (x : ℚ) : ℚ :=
  let known_x := sorted_pairs.map Prod.fst
  let known_y := sorted_pairs.map Prod.snd
  if known_x.contains x then known_y.getD (known_x.indexOf x) 0
  else
    let i := (known_x.takeWhile (fun a => decide (a < x))).length
    if i = 0 then known_y.getD 0 0
    else if i = known_x.length then known_y.getLastD 0
    else
      let x0 := known_x.getD (i - 1) 0
      let x1 := known_x.getD i 0
      let y0 := known_y.getD (i - 1) 0
      let y1 := known_y.getD i 0
      y0 + (x - x0) * (y1 - y0) / (x1 - x0)

/-- `NumericForecaster._linear_interpolation`: sort the known pairs,
then interpolate every query point. -/
def linear_interpolation (x_values : List ℚ) (xy_pairs : List (ℚ × ℚ)) : List ℚ :=
  let sorted_pairs := pySortPairs xy_pairs
  x_values.map (liOne sorted_pairs)

/-- `np.linspace(0, 1, n)`. -/
def pyLinspace (n : ℕ) : List ℚ :=
  if n = 0 then []
  else if n = 1 then [0]
  else (List.range n).map (fun i => ((i : ℕ) : ℚ) / ((n : ℚ) - 1))

/-- `NumericForecaster._generate_cdf_locations`: the linspace grid
mapped through the linear or log scale. Real exponentiation
`deriv_ratio ** x` is irrational in general, so it is supplied as an
explicit parameter `rpow`; every theorem below holds for all `rpow`
or hypothesises only an order property of the produced grid. -/
def generate_cdf_locations (range_min range_max : ℚ) (zero_point : Option ℚ)
    (cdf_size : ℕ) (rpow : ℚ → ℚ → ℚ) : List ℚ :=
  match zero_point with
  | none => (pyLinspace cdf_size).map (fun x => range_min + (range_max - range_min) * x)
  | some zp =>
    let deriv_ratio := (range_max - zp) / (range_min - zp)
    (pyLinspace cdf_size).map (fun x =>
      range_min + (range_max - range_min) * (rpow deriv_ratio x - 1) / (deriv_ratio - 1))

/-- The bound-adjustment loop body of
`NumericForecaster._generate_continuous_cdf`: a value within `buffer`
of a closed lower bound is snapped to `range_min + buffer`, then
(both tests read the original value) a value within `buffer` of a
closed upper bound is snapped to `range_max - buffer`. -/
def adjustBoundValue (open_upper_bound open_lower_bound : Bool)
    (range_min range_max buffer v : ℚ) : ℚ :=
  let v1 := if ¬open_lower_bound ∧ v ≤ range_min + buffer then range_min + buffer else v
  if ¬open_upper_bound ∧ v ≥ range_max - buffer then range_max - buffer else v1

/-- The buffer of `NumericForecaster._generate_continuous_cdf`:
`1 if range_size > 100 else 0.01 * range_size`. -/
def bufferFor (range_size : ℚ) : ℚ :=
  if 100 < range_size then 1 else range_size / 100

/-- The bound-adjustment loop of `_generate_continuous_cdf`: every
value is snapped towards a closed bound it comes within `buffer` of.
Keys are untouched. -/
def adjustedDict (pv : List (ℚ × ℚ)) (open_upper_bound open_lower_bound : Bool)
    (range_min range_max buffer : ℚ) : List (ℚ × ℚ) :=
  pv.map (fun p =>
    (p.1, adjustBoundValue open_upper_bound open_lower_bound range_min range_max buffer p.2))

/-- The upper-bound anchor step of `_generate_continuous_cdf`: with a
closed upper bound, key 100 is set to `range_max`; with an open one,
if the value at the maximal original percentile is still below
`range_max`, a synthetic percentile `int(100 - 0.5*(100 - pmax))` is
set to `range_max`. -/
def upperAnchored (d : List (ℚ × ℚ)) (open_upper_bound : Bool)
    (range_max percentile_max : ℚ) : List (ℚ × ℚ) :=
  if open_upper_bound then
    if pyGetD d percentile_max 0 < range_max then
      pySet d ((pyInt (100 - (1 / 2 * (100 - percentile_max))) : ℤ) : ℚ) range_max
    else d
  else pySet d 100 range_max

/-- The lower-bound anchor step of `_generate_continuous_cdf`,
mirror image of `upperAnchored`; it reads the (possibly already
upper-anchored) dict at the minimal original percentile. -/
def lowerAnchored (d : List (ℚ × ℚ)) (open_lower_bound : Bool)
    (range_min percentile_min : ℚ) : List (ℚ × ℚ) :=
  if open_lower_bound then
    if range_min < pyGetD d percentile_min 0 then
      pySet d ((pyInt (1 / 2 * percentile_min) : ℤ) : ℚ) range_min
    else d
  else pySet d 0 range_min

/-- The dict after both anchor steps, with `percentile_max` and
`percentile_min` taken over the input dict's keys as in the source. -/
def anchoredDict (pv : List (ℚ × ℚ)) (open_upper_bound open_lower_bound : Bool)
    (upper_bound lower_bound : ℚ) : List (ℚ × ℚ) :=
  lowerAnchored
    (upperAnchored
      (adjustedDict pv open_upper_bound open_lower_bound lower_bound upper_bound
        (bufferFor (upper_bound - lower_bound)))
      open_upper_bound upper_bound (pyMaxD (pyKeys pv)))
    open_lower_bound lower_bound (pyMinD (pyKeys pv))

/-- The `value_percentiles` comprehension of
`_generate_continuous_cdf`: keys are scaled to [0, 1] and the mapping
is inverted to a value-to-percentile dict; Python dict insertion makes
a later duplicate value overwrite an earlier percentile in place. -/
def invertedDict (sorted_pv : List (ℚ × ℚ)) : List (ℚ × ℚ) :=
  (sorted_pv.map (fun p => (p.1 / 100, p.2))).foldl (fun d p => pySet d p.2 p.1) []

/-- `NumericForecaster._generate_continuous_cdf`
(src/forecasting/numeric.py). The input dict is an association list in
insertion order; `percentile_max`/`percentile_min` (`max`/`min` over
the keys, raising `ValueError` on an empty dict) are taken first, the
bound adjustment is applied to every value in place, synthetic anchor
percentiles are added at the open/closed bounds, the dict is sorted by
key, keys are scaled to [0, 1], the mapping is inverted to a
value-to-percentile dict (later duplicates overwriting earlier ones),
and the grid locations are interpolated against it.
`question_type` is an unused parameter of the source function. -/
def generate_continuous_cdf (percentile_values : List (ℚ × ℚ))
    (question_type : String) (open_upper_bound open_lower_bound : Bool)
    (upper_bound lower_bound : ℚ) (zero_point : Option ℚ) (cdf_size : ℕ)
    (rpow : ℚ → ℚ → ℚ) : Except PyErr (List ℚ) :=
  if percentile_values = [] then .error .valueError
  else
    .ok (linear_interpolation
      (generate_cdf_locations lower_bound upper_bound zero_point cdf_size rpow)
      (invertedDict (pySortPairs
        (anchoredDict percentile_values open_upper_bound open_lower_bound
          upper_bound lower_bound))))

/-- The CDF size chosen by `NumericForecaster.forecast`: one more than
the declared outcome count for a discrete question, 201 otherwise. -/
def cdf_size_for (question_type : String) (outcome_count : ℕ) : ℕ :=
  if question_type = "discrete" then outcome_count + 1 else 201

/-! ### Supporting lemmas -/

lemma pyLinspace_length (n : ℕ) : (pyLinspace n).length = n := by
  unfold pyLinspace
  by_cases h0 : n = 0
  · simp [h0]
  · by_cases h1 : n = 1
    · simp [h0, h1]
    · rw [if_neg h0, if_neg h1, List.length_map]
      exact List.length_range n

lemma generate_cdf_locations_length (a b : ℚ) (zp : Option ℚ) (n : ℕ)
    (rpow : ℚ → ℚ → ℚ) : (generate_cdf_locations a b zp n rpow).length = n := by
  cases zp <;> simp [generate_cdf_locations, pyLinspace_length]

lemma linear_interpolation_length (xs : List ℚ) (d : List (ℚ × ℚ)) :
    (linear_interpolation xs d).length = xs.length := by
  simp [linear_interpolation]

/-! ### Claim theorems -/

/-- C8: `extract_probability_percentage` matches only a digit run
immediately before a percent sign, so the text `Probability: 73.5%`
yields `5/100`; any text whose last match is at least 100 yields
`99/100`, and a last match of 0 yields `1/100`. -/
theorem extract_probability_percentage_spec :
    extract_probability_percentage "Probability: 73.5%" = .ok (5 / 100) ∧
    ∀ (s : String) (m : ℕ), (findPercentMatches s.toList).getLast? = some m →
      (100 ≤ m → extract_probability_percentage s = .ok (99 / 100)) ∧
      (m = 0 → extract_probability_percentage s = .ok (1 / 100)) := by
  refine ⟨by with_unfolding_all decide, ?_⟩
  intro s m hm
  constructor
  · intro h100
    unfold extract_probability_percentage
    rw [hm]
    show Except.ok (((min 99 (max 1 m) : ℕ) : ℚ) / 100) = Except.ok (99 / 100)
    have h : min 99 (max 1 m) = 99 := by omega
    rw [h]
    norm_num
  · intro h0
    subst h0
    unfold extract_probability_percentage
    rw [hm]
    show Except.ok (((min 99 (max 1 0) : ℕ) : ℚ) / 100) = Except.ok (1 / 100)
    norm_num

/-- Witness for C8 at concrete inputs. -/
theorem extract_probability_percentage_spec_witness :
    extract_probability_percentage "Probability: 250%" = .ok (99 / 100) ∧
    extract_probability_percentage "a 0% chance" = .ok (1 / 100) :=
  ⟨(extract_probability_percentage_spec.2 "Probability: 250%" 250 (by decide)).1 (by norm_num),
   (extract_probability_percentage_spec.2 "a 0% chance" 0 (by decide)).2 rfl⟩

/-- C6: for every non-empty percentile map, numeric CDF synthesis
returns a CDF of length exactly `cdf_size`, where `cdf_size` is 201
for continuous questions and `outcome_count + 1` for discrete ones. -/
theorem generate_continuous_cdf_length (pv : List (ℚ × ℚ))
    (question_type : String) (ou ol : Bool) (ub lb : ℚ) (zp : Option ℚ)
    (oc : ℕ) (rpow : ℚ → ℚ → ℚ) (hne : pv ≠ []) :
    ∃ l, generate_continuous_cdf pv question_type ou ol ub lb zp
        (cdf_size_for question_type oc) rpow = .ok l ∧
      l.length = cdf_size_for question_type oc := by
  unfold generate_continuous_cdf
  rw [if_neg hne]
  refine ⟨_, rfl, ?_⟩
  rw [linear_interpolation_length, generate_cdf_locations_length]

/-- Witness for C6 at a concrete input (continuous and discrete). -/
theorem generate_continuous_cdf_length_witness :
    (∃ l, generate_continuous_cdf [(50, 20)] "numeric" false false 100 0 none
        (cdf_size_for "numeric" 7) (fun _ _ => 0) = .ok l ∧
      l.length = cdf_size_for "numeric" 7) ∧
    (∃ l, generate_continuous_cdf [(50, 20)] "discrete" false false 100 0 none
        (cdf_size_for "discrete" 7) (fun _ _ => 0) = .ok l ∧
      l.length = cdf_size_for "discrete" 7) :=
  ⟨generate_continuous_cdf_length [(50, 20)] "numeric" false false 100 0 none 7
      (fun _ _ => 0) (by decide),
   generate_continuous_cdf_length [(50, 20)] "discrete" false false 100 0 none 7
      (fun _ _ => 0) (by decide)⟩

/-- C7 counterexample: with `option_count = 0`, Python's `results[-0:]`
is the whole collected list, not the last 0 values, so
`extract_option_probabilities` does not return the last `option_count`
collected values there. -/
theorem extract_option_probabilities_zero_slice :
    extract_option_probabilities "1\n2" 0 = .ok [1, 2] ∧
    (optionLineResults "1\n2").drop ((optionLineResults "1\n2").length - 0) = [] ∧
    extract_option_probabilities "1\n2" 0 ≠ .ok ([] : List ℚ) := by
  refine ⟨by with_unfolding_all decide, by with_unfolding_all decide, ?_⟩
  intro h
  rw [show extract_option_probabilities "1\n2" 0 = .ok [1, 2] from
    by with_unfolding_all decide] at h
  simp at h

/-- C7 (amended): `extract_option_probabilities` collects, in document
order, the last numeric token of every line containing one; it raises
`ValueError` exactly when fewer than `option_count` lines contain a
numeric token, returns the last `option_count` collected values when
`option_count ≥ 1`, and returns the whole collected list when
`option_count = 0` (Python's `[-0:]` slice). -/
theorem extract_option_probabilities_spec (t : String) (n : ℕ) :
    (extract_option_probabilities t n = .error .valueError ↔
      (optionLineResults t).length < n) ∧
    (1 ≤ n → n ≤ (optionLineResults t).length →
      extract_option_probabilities t n =
        .ok ((optionLineResults t).drop ((optionLineResults t).length - n))) ∧
    extract_option_probabilities t 0 = .ok (optionLineResults t) := by
  unfold extract_option_probabilities pySliceLast
  refine ⟨?_, ?_, ?_⟩
  · by_cases h : n ≤ (optionLineResults t).length
    · rw [if_pos h]
      constructor
      · intro hc
        simp at hc
      · intro hlt
        omega
    · rw [if_neg h]
      exact ⟨fun _ => by omega, fun _ => rfl⟩
  · intro h1 h2
    rw [if_pos h2, if_neg (by omega : ¬ n = 0)]
  · rw [if_pos (by omega), if_pos rfl]

/-- Witness for C7 at a concrete input. -/
theorem extract_option_probabilities_spec_witness :
    extract_option_probabilities "7\n8\n9" 2 =
      .ok ((optionLineResults "7\n8\n9").drop ((optionLineResults "7\n8\n9").length - 2)) :=
  (extract_option_probabilities_spec "7\n8\n9" 2).2.1 (by norm_num)
    (by with_unfolding_all decide)

/-- C10 counterexample: with `num_options = 0` and a text containing
numeric lines, extraction succeeds with a non-empty list, and feeding
it to `_generate_multiple_choice_forecast` with the (empty) option
list reaches the length-mismatch `ValueError` branch. -/
theorem extract_option_probabilities_zero_mismatch :
    extract_option_probabilities "3\n4" 0 = .ok [3, 4] ∧
    ([3, 4] : List ℚ).length ≠ 0 ∧
    generate_multiple_choice_forecast [] ([(3 : ℚ), 4].map PF.fin) =
      .error .valueErrorLengthMismatch := by
  refine ⟨by with_unfolding_all decide, by simp, by with_unfolding_all decide⟩

lemma PF.div_error {a b : PF} {e : PyErr} (h : PF.div a b = .error e) :
    e = .zeroDivisionError := by
  unfold PF.div at h
  by_cases hb : b = .fin 0
  · rw [if_pos hb] at h
    cases h
    rfl
  · rw [if_neg hb] at h
    simp at h

lemma exceptMapM_div_error {l : List PF} {s : PF} {e : PyErr}
    (h : exceptMapM (fun x => PF.div x s) l = .error e) : e = .zeroDivisionError := by
  induction l with
  | nil => simp [exceptMapM] at h
  | cons a tl ih =>
    rw [exceptMapM] at h
    cases hd : PF.div a s with
    | error e' =>
      rw [hd, except_bind_error] at h
      cases h
      exact PF.div_error hd
    | ok y =>
      rw [hd, except_bind_ok] at h
      cases hm : exceptMapM (fun x => PF.div x s) tl with
      | error e2 =>
        rw [hm, except_bind_error] at h
        cases h
        exact ih hm
      | ok ys =>
        rw [hm, except_bind_ok] at h
        cases h

lemma adjustLast_error {nl : List PF} {e : PyErr} (h : adjustLast nl = .error e) :
    e = .indexError := by
  unfold adjustLast at h
  cases nl with
  | nil =>
    cases h
    rfl
  | cons x xs => simp at h

lemma normalize_list_error {l : List PF} {e : PyErr}
    (h : normalize_list l = .error e) :
    e = .zeroDivisionError ∨ e = .indexError := by
  rw [normalize_list_def] at h
  cases hm : exceptMapM (fun x => PF.div x (pySumPF (l.map clampPF))) (l.map clampPF) with
  | error e' =>
    rw [hm, except_bind_error] at h
    cases h
    exact Or.inl (exceptMapM_div_error hm)
  | ok nl =>
    rw [hm, except_bind_ok] at h
    exact Or.inr (adjustLast_error h)

lemma forecastProbs_def (opts : List String) (scores : List PF) :
    forecastProbs opts scores =
      if opts.length ≠ scores.length then .error .valueErrorLengthMismatch
      else exceptMapM (fun x => PF.div x (pySumPF scores)) scores >>= normalize_list := rfl

lemma forecastProbs_ne_mismatch {opts : List String} {probs : List PF}
    (hlen : opts.length = probs.length) :
    forecastProbs opts probs ≠ .error .valueErrorLengthMismatch := by
  rw [forecastProbs_def, if_neg (by simp [hlen])]
  intro h
  cases hm : exceptMapM (fun x => PF.div x (pySumPF probs)) probs with
  | error e =>
    rw [hm, except_bind_error] at h
    cases h
    have := exceptMapM_div_error (Eq.refl (Except.error PyErr.valueErrorLengthMismatch) ▸ hm)
    exact absurd this (by intro hc; cases hc)
  | ok dl =>
    rw [hm, except_bind_ok] at h
    rcases normalize_list_error h with h2 | h2 <;> cases h2

lemma generate_multiple_choice_forecast_def (options : List String)
    (option_probabilities : List PF) :
    generate_multiple_choice_forecast options option_probabilities =
      forecastProbs options option_probabilities >>= fun probs =>
        .ok ((options.zip probs).foldl (fun d p => pySet d p.1 p.2) []) := rfl

/-- C10 (amended): for `num_options ≥ 1`, a successful
`extract_option_probabilities` returns exactly `num_options` values,
so feeding its output into `_generate_multiple_choice_forecast` with
an option list of that length can never reach the length-mismatch
`ValueError` branch (for `num_options = 0` the branch is reachable,
see the counterexample). -/
theorem extract_option_probabilities_feeds_mc (t : String) (n : ℕ) (l : List ℚ)
    (h1 : 1 ≤ n) (hok : extract_option_probabilities t n = .ok l) :
    l.length = n ∧ ∀ options : List String, options.length = n →
      generate_multiple_choice_forecast options (l.map PF.fin) ≠
        .error .valueErrorLengthMismatch := by
  unfold extract_option_probabilities at hok
  by_cases h : n ≤ (optionLineResults t).length
  · rw [if_pos h] at hok
    have hl : l = pySliceLast (optionLineResults t) n := by
      cases hok
      rfl
    have hlen : l.length = n := by
      rw [hl]
      unfold pySliceLast
      rw [if_neg (by omega : ¬ n = 0), List.length_drop]
      omega
    refine ⟨hlen, ?_⟩
    intro options hopts heq
    rw [generate_multiple_choice_forecast_def] at heq
    cases hf : forecastProbs options (l.map PF.fin) with
    | error e =>
      rw [hf, except_bind_error] at heq
      cases heq
      exact forecastProbs_ne_mismatch (by rw [List.length_map, hlen, hopts]) hf
    | ok ps =>
      rw [hf, except_bind_ok] at heq
      cases heq
  · rw [if_neg h] at hok
    cases hok

/-- Witness for C10 at a concrete input. -/
theorem extract_option_probabilities_feeds_mc_witness :
    ([(5 : ℚ), 6].length = 2) ∧
    generate_multiple_choice_forecast ["A", "B"] ([(5 : ℚ), 6].map PF.fin) ≠
      .error .valueErrorLengthMismatch :=
  ⟨(extract_option_probabilities_feeds_mc "5\n6" 2 [5, 6] (by norm_num)
      (by with_unfolding_all decide)).1,
   (extract_option_probabilities_feeds_mc "5\n6" 2 [5, 6] (by norm_num)
      (by with_unfolding_all decide)).2 ["A", "B"] rfl⟩

lemma matchCore_head_digit {cs : List Char} {p : List Char × List Char}
    (h : matchCore cs = some p) : ∃ c t, p.1 = c :: t ∧ c.isDigit := by
  unfold matchCore at h
  by_cases hd : cs.takeWhile Char.isDigit = []
  · simp [hd] at h
  · simp only [hd, if_false, Option.some.injEq] at h
    obtain ⟨c, ds', hds⟩ := List.exists_cons_of_ne_nil hd
    refine ⟨c, ds' ++ (commaGroups (cs.dropWhile Char.isDigit)).1 ++
      (decPart (commaGroups (cs.dropWhile Char.isDigit)).2).1, ?_, ?_⟩
    · rw [← h, hds]
      simp
    · have hc : c ∈ cs.takeWhile Char.isDigit := by
        rw [hds]
        exact List.mem_cons_self c ds'
      exact List.mem_takeWhile_imp hc

lemma matchPercNum_head_digit {cs : List Char} {p : List Char × List Char}
    (h : matchPercNum cs = some p) : ∃ c t, p.1 = c :: t ∧ c.isDigit := by
  rcases cs with _ | ⟨c, rest⟩
  · simp [matchPercNum.eq_def] at h
  · rw [matchPercNum.eq_def] at h
    by_cases hc : c = '-'
    · simp only [hc, if_true] at h
      exact matchCore_head_digit h
    · simp only [hc, if_false] at h
      exact matchCore_head_digit h

lemma findPercNumbersF_mem_head {fuel : ℕ} {cs t : List Char}
    (h : t ∈ findPercNumbersF fuel cs) : ∃ c r, t = c :: r ∧ c.isDigit := by
  induction fuel generalizing cs with
  | zero => simp [findPercNumbersF] at h
  | succ fuel ih =>
    rcases cs with _ | ⟨c, rest⟩
    · simp [findPercNumbersF] at h
    · rw [findPercNumbersF] at h
      cases hm : matchPercNum (c :: rest) with
      | some p =>
        rw [hm] at h
        rcases List.mem_cons.mp h with h1 | h1
        · obtain ⟨c2, t2, ht, hd⟩ := matchPercNum_head_digit hm
          exact ⟨c2, t2, by rw [h1, ht], hd⟩
        · exact ih h1
      | none =>
        rw [hm] at h
        exact ih h

lemma parseUnsigned_nonneg (t1 : List Char) : 0 ≤ parseUnsigned t1 := by
  unfold parseUnsigned
  cases t1.dropWhile Char.isDigit with
  | nil => positivity
  | cons c frac =>
    show 0 ≤ (if c = '.' then
        (parseDigits (t1.takeWhile Char.isDigit) : ℚ) +
          (parseDigits frac : ℚ) / ((10 : ℚ) ^ frac.length)
      else (parseDigits (t1.takeWhile Char.isDigit) : ℚ))
    by_cases hc : c = '.'
    · rw [if_pos hc]
      positivity
    · rw [if_neg hc]
      positivity

lemma parseToken_nonneg {t : List Char} {c : Char} (hh : t.head? = some c)
    (hd : c.isDigit) : 0 ≤ parseToken t := by
  unfold parseToken
  have hne : ¬ t.head? = some '-' := by
    rw [hh]
    intro hcon
    injection hcon with hc2
    rw [hc2] at hd
    exact absurd hd (by decide)
  rw [if_neg hne]
  exact parseUnsigned_nonneg _

lemma findPercNumbers_values_nonneg {line : String} {q : ℚ}
    (h : q ∈ (findPercNumbers line.toList).map parseToken) : 0 ≤ q := by
  rcases List.mem_map.mp h with ⟨t, ht, hq⟩
  obtain ⟨c, r, hcr, hd⟩ := findPercNumbersF_mem_head ht
  rw [← hq]
  exact parseToken_nonneg (by rw [hcr]; rfl) hd

/-- C4 counterexample: in the line `Percentile 10: a-b: 20` the text
after the first colon contains a minus sign, yet the extracted value
stays positive — the code inspects the text after the last colon. -/
theorem extract_percentiles_sign_counterexample :
    (String.intercalate ":" (("Percentile 10: a-b: 20".splitOn ":").drop 1)).contains '-'
      = true ∧
    extract_percentiles "Percentile 10: a-b: 20" = .ok [(10, 20)] ∧
    ¬ (20 : ℚ) < 0 :=
  ⟨by with_unfolding_all decide, by with_unfolding_all decide, by norm_num⟩

/-- C4 (amended): for every qualifying line of `extract_percentiles`
(one matching the percentile regex and yielding more than one numeric
token), the parsed last token is non-negative (the capture groups are
unsigned), and the stored value is the negated token exactly when the
text after the **last** colon of the line (the whole line when it has
no colon) contains a minus sign, the unchanged token otherwise. -/
theorem linePair_sign (line : String)
    (h1 : percentileLineMatch line = true)
    (h2 : 1 < ((findPercNumbers line.toList).map parseToken).length) :
    0 ≤ ((findPercNumbers line.toList).map parseToken).getLastD 0 ∧
    linePair line = some (((findPercNumbers line.toList).map parseToken).headD 0,
      if ((line.splitOn ":").getLastD "").contains '-' then
        -(((findPercNumbers line.toList).map parseToken).getLastD 0)
      else ((findPercNumbers line.toList).map parseToken).getLastD 0) := by
  have hne : (findPercNumbers line.toList).map parseToken ≠ [] := by
    intro hc
    rw [hc] at h2
    simp at h2
  have hnn : 0 ≤ ((findPercNumbers line.toList).map parseToken).getLastD 0 := by
    apply findPercNumbers_values_nonneg
    rw [List.getLastD_eq_getLast?, List.getLast?_eq_getLast _ hne, Option.getD_some]
    exact List.getLast_mem hne
  refine ⟨hnn, ?_⟩
  unfold linePair
  rw [if_pos h1, if_pos h2]
  by_cases hm : ((line.splitOn ":").getLastD "").contains '-'
  · rw [if_pos hm, if_pos hm, abs_of_nonneg hnn]
  · rw [if_neg hm, if_neg hm]

/-- Witness for C4 at the concrete line `Percentile 10: -5`. -/
theorem linePair_sign_witness :
    0 ≤ ((findPercNumbers "Percentile 10: -5".toList).map parseToken).getLastD 0 ∧
    linePair "Percentile 10: -5" =
      some (((findPercNumbers "Percentile 10: -5".toList).map parseToken).headD 0,
        if (("Percentile 10: -5".splitOn ":").getLastD "").contains '-' then
          -(((findPercNumbers "Percentile 10: -5".toList).map parseToken).getLastD 0)
        else ((findPercNumbers "Percentile 10: -5".toList).map parseToken).getLastD 0) :=
  linePair_sign "Percentile 10: -5" (by with_unfolding_all decide)
    (by with_unfolding_all decide)

lemma pyGet_cons {κ α : Type} [DecidableEq κ] (p : κ × α) (tl : List (κ × α)) (k : κ) :
    pyGet (p :: tl) k = if p.1 = k then some p.2 else pyGet tl k := by
  unfold pyGet
  by_cases h : p.1 = k
  · rw [if_pos h, List.find?_cons_of_pos _ (by simp [h])]
    rfl
  · rw [if_neg h, List.find?_cons_of_neg _ (by simp [h])]

lemma pyGet_pySet {κ α : Type} [DecidableEq κ] (d : List (κ × α)) (k k' : κ) (v : α) :
    pyGet (pySet d k v) k' = if k = k' then some v else pyGet d k' := by
  induction d with
  | nil =>
    show pyGet [(k, v)] k' = _
    rw [pyGet_cons]
  | cons p tl ih =>
    rw [pySet]
    by_cases hp : p.1 = k
    · rw [if_pos hp]
      by_cases h : k = k'
      · rw [pyGet_cons, if_pos (show ((k, v) : κ × α).1 = k' from h), if_pos h]
      · rw [pyGet_cons, if_neg (show ¬ ((k, v) : κ × α).1 = k' from h), if_neg h,
          pyGet_cons, if_neg (fun hc => h (hp ▸ hc))]
    · rw [if_neg hp, pyGet_cons, ih]
      by_cases h : k = k'
      · rw [if_pos h, if_neg (show ¬ p.1 = k' from fun hc => hp (by rw [hc, ← h])), if_pos h]
      · rw [if_neg h, if_neg h, pyGet_cons]

lemma pyKeys_pySet {κ α : Type} [DecidableEq κ] (d : List (κ × α)) (k : κ) (v : α) :
    pyKeys (pySet d k v) = if k ∈ pyKeys d then pyKeys d else pyKeys d ++ [k] := by
  induction d with
  | nil => simp [pySet, pyKeys]
  | cons p tl ih =>
    rw [pySet]
    by_cases hp : p.1 = k
    · rw [if_pos hp]
      have hk : k ∈ pyKeys (p :: tl) := by
        unfold pyKeys
        simp only [List.map_cons]
        exact List.mem_cons.mpr (Or.inl hp.symm)
      rw [if_pos hk]
      unfold pyKeys
      simp [hp]
    · rw [if_neg hp]
      unfold pyKeys at ih ⊢
      simp only [List.map_cons]
      rw [ih]
      by_cases h : k ∈ tl.map Prod.fst
      · rw [if_pos h, if_pos (List.mem_cons.mpr (Or.inr h))]
      · rw [if_neg h, if_neg (show ¬ k ∈ p.1 :: tl.map Prod.fst from by
          intro hc
          rcases List.mem_cons.mp hc with h1 | h1
          · exact hp h1.symm
          · exact h h1), List.cons_append]

lemma pyKeys_nodup_pySet {κ α : Type} [DecidableEq κ] {d : List (κ × α)} (k : κ) (v : α)
    (h : (pyKeys d).Nodup) : (pyKeys (pySet d k v)).Nodup := by
  rw [pyKeys_pySet]
  by_cases hk : k ∈ pyKeys d
  · rw [if_pos hk]
    exact h
  · rw [if_neg hk]
    simp [List.nodup_append, h, hk]

lemma pyGet_foldl_pySet (f : ℚ × ℚ → ℚ) (ps : List (ℚ × ℚ)) (d0 : List (ℚ × ℚ)) (k : ℚ) :
    pyGet (ps.foldl (fun d p => pySet d (f p) p.2) d0) k =
      match (ps.filter (fun p => f p = k)).getLast? with
      | some p => some p.2
      | none => pyGet d0 k := by
  induction ps generalizing d0 with
  | nil => rfl
  | cons p tl ih =>
    rw [List.foldl_cons, ih, List.filter_cons]
    cases hl : (tl.filter (fun q => decide (f q = k))).getLast? with
    | some q =>
      have hne : tl.filter (fun q => decide (f q = k)) ≠ [] := by
        intro hc
        rw [hc] at hl
        cases hl
      by_cases hp : f p = k
      · rw [if_pos (by simp [hp])]
        obtain ⟨q0, F, hF⟩ := List.exists_cons_of_ne_nil hne
        rw [hF]
        rw [hF] at hl
        rw [List.getLast?_cons_cons, hl]
      · rw [if_neg (by simp [hp]), hl]
    | none =>
      have hemp : tl.filter (fun q => decide (f q = k)) = [] :=
        List.getLast?_eq_none_iff.mp hl
      rw [hemp]
      rw [pyGet_pySet]
      by_cases hp : f p = k
      · simp [hp]
      · simp [hp]

lemma pyKeys_nodup_foldl (f : ℚ × ℚ → ℚ) (ps : List (ℚ × ℚ)) (d0 : List (ℚ × ℚ))
    (h : (pyKeys d0).Nodup) :
    (pyKeys (ps.foldl (fun d p => pySet d (f p) p.2) d0)).Nodup := by
  induction ps generalizing d0 with
  | nil => exact h
  | cons p tl ih =>
    rw [List.foldl_cons]
    exact ih _ (pyKeys_nodup_pySet _ _ h)

/-- C9: when two or more qualifying lines yield the same integer
percentile key, the value from the last such line wins: the dict
returned by `extract_percentiles` has no duplicate keys, and its value
at any key is the second component of the last per-line pair whose
truncated first number equals that key. -/
theorem extract_percentiles_last_wins (t : String) (d : List (ℚ × ℚ))
    (hok : extract_percentiles t = .ok d) :
    (pyKeys d).Nodup ∧
    ∀ k : ℚ, pyGet d k =
      ((((pyLines t).filterMap linePair).filter
        (fun p => ((pyInt p.1 : ℤ) : ℚ) = k)).getLast?).map Prod.snd := by
  have hd : d = percentileDict t := by
    unfold extract_percentiles at hok
    by_cases h : 0 < (percentileDict t).length
    · rw [if_pos h] at hok
      cases hok
      rfl
    · rw [if_neg h] at hok
      cases hok
  subst hd
  constructor
  · exact pyKeys_nodup_foldl _ _ _ (by simp [pyKeys])
  · intro k
    unfold percentileDict
    rw [pyGet_foldl_pySet (fun p => ((pyInt p.1 : ℤ) : ℚ))]
    cases hl : (((pyLines t).filterMap linePair).filter
        (fun p => decide (((pyInt p.1 : ℤ) : ℚ) = k))).getLast? with
    | some q => rfl
    | none => rfl

/-- Witness for C9 at a concrete two-line text with a repeated key. -/
theorem extract_percentiles_last_wins_witness :
    (pyKeys [((10 : ℚ), (40 : ℚ))]).Nodup ∧
    pyGet [((10 : ℚ), (40 : ℚ))] 10 =
      ((((pyLines "Percentile 10: 30\nPercentile 10: 40").filterMap linePair).filter
        (fun p => ((pyInt p.1 : ℤ) : ℚ) = 10)).getLast?).map Prod.snd :=
  ⟨(extract_percentiles_last_wins "Percentile 10: 30\nPercentile 10: 40" [(10, 40)]
      (by with_unfolding_all decide)).1,
   (extract_percentiles_last_wins "Percentile 10: 30\nPercentile 10: 40" [(10, 40)]
      (by with_unfolding_all decide)).2 10⟩

lemma insertionSort_eq_of_perm {l1 l2 : List ℚ} (h : l1.Perm l2) :
    l1.insertionSort (· ≤ ·) = l2.insertionSort (· ≤ ·) :=
  List.eq_of_perm_of_sorted
    ((List.perm_insertionSort _ l1).trans (h.trans (List.perm_insertionSort _ l2).symm))
    (List.sorted_insertionSort _ l1) (List.sorted_insertionSort _ l2)

lemma npMedian_perm {l1 l2 : List ℚ} (h : l1.Perm l2) : npMedian l1 = npMedian l2 := by
  unfold npMedian
  rw [h.length_eq, insertionSort_eq_of_perm h]

/-- C5: for a fixed non-empty multiset of run results, each aggregation
is invariant under permutation of the runs: the binary numpy median,
the numeric elementwise-median CDF, and the multiple-choice per-option
arithmetic mean all give the same answer for every ordering. -/
theorem aggregation_perm_invariant :
    (∀ ps qs : List ℚ, ps ≠ [] → ps.Perm qs → npMedian ps = npMedian qs) ∧
    (∀ (cdfs cdfs' : List (List ℚ)) (size : ℕ), cdfs ≠ [] → cdfs.Perm cdfs' →
      median_cdf cdfs size = median_cdf cdfs' size) ∧
    (∀ (options : List String) (ds ds' : List (List (String × ℚ))),
      ds ≠ [] → ds.Perm ds' → mc_aggregate options ds = mc_aggregate options ds') := by
  refine ⟨fun ps qs _ h => npMedian_perm h, ?_, ?_⟩
  · intro cdfs cdfs' size _ h
    unfold median_cdf
    congr 1
    funext j
    exact npMedian_perm (h.map _)
  · intro options ds ds' _ h
    unfold mc_aggregate
    congr 1
    funext o
    rw [(h.map (fun d => pyGetD d o 0)).sum_eq, (h.map (fun d => pyGetD d o 0)).length_eq]

/-- Witness for C5 at concrete permuted run lists. -/
theorem aggregation_perm_invariant_witness :
    npMedian [3/10, 7/10, 1/2] = npMedian [1/2, 3/10, 7/10] ∧
    median_cdf [[0, 1], [1/2, 1]] 2 = median_cdf [[1/2, 1], [0, 1]] 2 ∧
    mc_aggregate ["A"] [[("A", 1/2)], [("A", 1/4)]] =
      mc_aggregate ["A"] [[("A", 1/4)], [("A", 1/2)]] :=
  ⟨aggregation_perm_invariant.1 [3/10, 7/10, 1/2] [1/2, 3/10, 7/10] (by simp)
      (by with_unfolding_all decide),
   aggregation_perm_invariant.2.1 [[0, 1], [1/2, 1]] [[1/2, 1], [0, 1]] 2 (by simp)
      (by with_unfolding_all decide),
   aggregation_perm_invariant.2.2 ["A"] [[("A", 1/2)], [("A", 1/4)]]
      [[("A", 1/4)], [("A", 1/2)]] (by simp) (by with_unfolding_all decide)⟩

set_option maxRecDepth 4000 in
/-- C2 counterexample: positive raw scores whose smallest entry clamps
up to 0.01 make the final renormalization push that entry below 0.01,
because clamping happens before the division by the clamped sum. -/
theorem mc_probs_bound_counterexample :
    forecastProbs ["A", "B", "C"] ([(1 : ℚ), 499, 500].map PF.fin) =
      .ok ([10 / 1009, 499 / 1009, 500 / 1009].map PF.fin) ∧
    ¬ (1 / 100 : ℚ) ≤ 10 / 1009 :=
  ⟨by with_unfolding_all decide, by norm_num⟩

lemma pySumPF_fin_aux (a : ℚ) (qs : List ℚ) :
    (qs.map PF.fin).foldl PF.add (.fin a) = .fin (a + qs.sum) := by
  induction qs generalizing a with
  | nil => simp
  | cons q tl ih =>
    rw [List.map_cons, List.foldl_cons]
    show (tl.map PF.fin).foldl PF.add (.fin (a + q)) = _
    rw [ih, List.sum_cons]
    ring_nf

lemma pySumPF_fin (qs : List ℚ) : pySumPF (qs.map PF.fin) = .fin qs.sum := by
  unfold pySumPF
  rw [pySumPF_fin_aux]
  ring_nf

lemma pdiv_fin (a s : ℚ) (hs : s ≠ 0) :
    PF.div (.fin a) (.fin s) = .ok (.fin (a / s)) := by
  unfold PF.div
  rw [if_neg (by simp [hs])]

lemma exceptMapM_div_fin (qs : List ℚ) (s : ℚ) (hs : s ≠ 0) :
    exceptMapM (fun x => PF.div x (.fin s)) (qs.map PF.fin) =
      .ok ((qs.map (fun q => q / s)).map PF.fin) := by
  induction qs with
  | nil => rfl
  | cons q tl ih =>
    rw [List.map_cons, exceptMapM, pdiv_fin q s hs, except_bind_ok, ih, except_bind_ok]
    rfl

lemma clampPF_fin (a : ℚ) :
    clampPF (.fin a) = .fin (max (min a (99 / 100)) (1 / 100)) := by
  unfold clampPF pyMinPF pyMaxPF
  by_cases h1 : (99 / 100 : ℚ) < a
  · rw [if_pos (show PF.lt (.fin (99 / 100)) (.fin a) from by
      simp only [PF.lt]
      exact decide_eq_true h1)]
    rw [if_neg (show ¬ PF.lt (.fin (99 / 100)) (.fin (1 / 100)) from by
      simp only [PF.lt, decide_eq_true_eq]
      norm_num)]
    rw [min_eq_right h1.le, max_eq_left (by norm_num)]
  · rw [if_neg (show ¬ PF.lt (.fin (99 / 100)) (.fin a) from by
      simp only [PF.lt, decide_eq_true_eq]
      exact h1)]
    by_cases h2 : a < 1 / 100
    · rw [if_pos (show PF.lt (.fin a) (.fin (1 / 100)) from by
        simp only [PF.lt]
        exact decide_eq_true h2)]
      rw [min_eq_left (not_lt.mp h1), max_eq_right h2.le]
    · rw [if_neg (show ¬ PF.lt (.fin a) (.fin (1 / 100)) from by
        simp only [PF.lt, decide_eq_true_eq]
        exact h2)]
      rw [min_eq_left (not_lt.mp h1), max_eq_left (not_lt.mp h2)]

lemma sum_map_div (l : List ℚ) (s : ℚ) : (l.map (fun c => c / s)).sum = l.sum / s := by
  induction l with
  | nil => simp
  | cons a tl ih => simp [List.sum_cons, ih, add_div]

lemma adjustLast_cons (x : PF) (xs : List PF) :
    adjustLast (x :: xs) = .ok ((x :: xs).dropLast ++
      [PF.add ((x :: xs).getLastD (.fin 0)) (PF.sub (.fin 1) (pySumPF (x :: xs)))]) := rfl

lemma PF.add_fin_zero (a : ℚ) : PF.add (.fin a) (.fin 0) = .fin a := by
  show PF.fin (a + 0) = _
  rw [add_zero]

lemma adjustLast_fin_sum_one {ns : List ℚ} (hne : ns ≠ []) (hsum : ns.sum = 1) :
    adjustLast (ns.map PF.fin) = .ok (ns.map PF.fin) := by
  obtain ⟨x, xs, hxx⟩ := List.exists_cons_of_ne_nil hne
  subst hxx
  rw [List.map_cons, adjustLast_cons, ← List.map_cons PF.fin x xs]
  rw [pySumPF_fin, hsum]
  rw [show PF.sub (.fin 1) (.fin 1) = .fin 0 from by
    show PF.fin (1 - 1) = _
    norm_num]
  have hne2 : (x :: xs         : List ℚ) ≠ [] := by simp
  rw [List.getLastD_eq_getLast?, List.getLast?_map,
    List.getLast?_eq_getLast _ hne2, Option.map_some', Option.getD_some, PF.add_fin_zero,
    ← List.map_dropLast, show [PF.fin ((x :: xs).getLast hne2)] =
      List.map PF.fin [(x :: xs).getLast hne2] from rfl, ← List.map_append,
    List.dropLast_append_getLast hne2]

/-- C2 (amended): for every non-empty list of strictly positive finite
raw scores matching the option count, the multiple-choice pipeline
succeeds and returns finite probabilities that sum to exactly 1 and
are each strictly positive and at most 1. (They need not lie in
[0.01, 0.99]: clamping precedes the final renormalization, which can
push values outside that interval — see the counterexample.) -/
theorem mc_probs_simplex (opts : List String) (qs : List ℚ)
    (hlen : opts.length = qs.length) (hne : qs ≠ []) (hpos : ∀ q ∈ qs, 0 < q) :
    ∃ ps : List ℚ, forecastProbs opts (qs.map PF.fin) = .ok (ps.map PF.fin) ∧
      ps.sum = 1 ∧ ∀ p ∈ ps, 0 < p ∧ p ≤ 1 := by
  have hS : (0 : ℚ) < qs.sum := List.sum_pos qs hpos hne
  set ds : List ℚ := qs.map (fun q => q / qs.sum) with hds
  set cs : List ℚ := ds.map (fun d => max (min d (99 / 100)) (1 / 100)) with hcs
  have hcs_lb : ∀ c ∈ cs, 1 / 100 ≤ c := by
    intro c hc
    rcases List.mem_map.mp hc with ⟨d, _, hcd⟩
    rw [← hcd]
    exact le_max_right _ _
  have hcs_pos : ∀ c ∈ cs, 0 < c := fun c hc =>
    lt_of_lt_of_le (by norm_num) (hcs_lb c hc)
  have hcs_ne : cs ≠ [] := by
    rw [hcs, hds]
    simp [hne]
  have hT : (0 : ℚ) < cs.sum := List.sum_pos cs hcs_pos hcs_ne
  set ns : List ℚ := cs.map (fun c => c / cs.sum) with hns
  have hns_sum : ns.sum = 1 := by
    rw [hns, sum_map_div]
    exact div_self hT.ne'
  have hns_ne : ns ≠ [] := by
    rw [hns]
    simp [hcs_ne]
  refine ⟨ns, ?_, hns_sum, ?_⟩
  · rw [forecastProbs_def, if_neg (by simp [hlen]), pySumPF_fin,
      exceptMapM_div_fin qs qs.sum hS.ne', except_bind_ok, normalize_list_def]
    have hclamp : ((ds.map PF.fin).map clampPF) = cs.map PF.fin := by
      rw [hcs, hds]
      simp only [List.map_map]
      apply List.map_congr_left
      intro q _
      simp only [Function.comp_apply]
      exact clampPF_fin _
    rw [← hds, hclamp, pySumPF_fin, exceptMapM_div_fin cs cs.sum hT.ne', except_bind_ok,
      ← hns, adjustLast_fin_sum_one hns_ne hns_sum]
  · intro p hp
    rw [hns] at hp
    rcases List.mem_map.mp hp with ⟨c, hc, hpc⟩
    constructor
    · rw [← hpc]
      exact div_pos (hcs_pos c hc) hT
    · rw [← hpc]
      rw [div_le_one hT]
      exact List.single_le_sum (fun x hx => (hcs_pos x hx).le) c hc

/-- Witness for C2 at concrete positive scores. -/
theorem mc_probs_simplex_witness :
    ∃ ps : List ℚ, forecastProbs ["A", "B"] ([(1 : ℚ), 3].map PF.fin) = .ok (ps.map PF.fin) ∧
      ps.sum = 1 ∧ ∀ p ∈ ps, 0 < p ∧ p ≤ 1 :=
  mc_probs_simplex ["A", "B"] [1, 3] rfl (by simp)
    (by
      intro q hq
      rcases List.mem_cons.mp hq with h | h
      · rw [h]; norm_num
      · rcases List.mem_cons.mp h with h2 | h2
        · rw [h2]; norm_num
        · simp at h2)

set_option maxRecDepth 4000 in
/-- C3 counterexample: a non-finite raw score does not make the
pipeline fail — the infinities turn into NaNs that propagate silently
into a successful result (and the score sum here is not zero, so the
zero-sum clause does not apply either). -/
theorem mc_nonfinite_no_error :
    generate_multiple_choice_forecast ["A", "B"] [PF.inf, PF.fin 1] =
      .ok [("A", PF.nan), ("B", PF.nan)] ∧
    pySumPF [PF.inf, PF.fin 1] ≠ PF.fin 0 :=
  ⟨by with_unfolding_all decide, by with_unfolding_all decide⟩

lemma exceptMapM_div_zero {l : List PF} (hne : l ≠ []) :
    exceptMapM (fun x => PF.div x (.fin 0)) l = .error .zeroDivisionError := by
  obtain ⟨x, xs, h⟩ := List.exists_cons_of_ne_nil hne
  subst h
  rw [exceptMapM, show PF.div x (.fin 0) = .error .zeroDivisionError from by
    unfold PF.div
    rw [if_pos rfl], except_bind_error]

lemma pdiv_ok (a b : PF) (hb : b ≠ .fin 0) : ∃ y, PF.div a b = .ok y := by
  unfold PF.div
  rw [if_neg hb]
  exact ⟨_, rfl⟩

lemma exceptMapM_div_ok (l : List PF) (s : PF) (hs : s ≠ .fin 0) :
    ∃ ys, exceptMapM (fun x => PF.div x s) l = .ok ys ∧ ys.length = l.length := by
  induction l with
  | nil => exact ⟨[], rfl, rfl⟩
  | cons x xs ih =>
    obtain ⟨y, hy⟩ := pdiv_ok x s hs
    obtain ⟨ys, hys, hlen⟩ := ih
    refine ⟨y :: ys, ?_, by simp [hlen]⟩
    rw [exceptMapM, hy, except_bind_ok, hys, except_bind_ok]

lemma PF.add_nan_left : ∀ y : PF, PF.add .nan y = .nan := by
  intro y
  cases y <;> rfl

lemma foldl_add_nan (l : List PF) : l.foldl PF.add .nan = .nan := by
  induction l with
  | nil => rfl
  | cons x xs ih =>
    rw [List.foldl_cons, PF.add_nan_left]
    exact ih

lemma clampPF_shape (x : PF) :
    clampPF x = PF.nan ∨ ∃ q, clampPF x = .fin q ∧ 1 / 100 ≤ q ∧ q ≤ 99 / 100 := by
  cases x with
  | fin a =>
    right
    refine ⟨max (min a (99 / 100)) (1 / 100), clampPF_fin a, le_max_right _ _, ?_⟩
    exact max_le (le_trans (min_le_right _ _) (le_refl _)) (by norm_num)
  | inf =>
    right
    exact ⟨99 / 100, by with_unfolding_all decide, by norm_num, le_refl _⟩
  | ninf =>
    right
    exact ⟨1 / 100, by with_unfolding_all decide, le_refl _, by norm_num⟩
  | nan => exact Or.inl (by with_unfolding_all decide)

lemma foldl_add_shape (l : List PF)
    (hl : ∀ x ∈ l, x = PF.nan ∨ ∃ q, x = .fin q ∧ 1 / 100 ≤ q ∧ q ≤ 99 / 100) (a : ℚ) :
    l.foldl PF.add (.fin a) = PF.nan ∨
      ∃ q, l.foldl PF.add (.fin a) = .fin q ∧ a + l.length * (1 / 100) ≤ q := by
  induction l generalizing a with
  | nil =>
    right
    exact ⟨a, rfl, by simp⟩
  | cons x xs ih =>
    rcases hl x (List.mem_cons_self x xs) with hx | ⟨q, hx, hq1, hq2⟩
    · subst hx
      rw [List.foldl_cons, show PF.add (.fin a) .nan = .nan from rfl]
      exact Or.inl (foldl_add_nan xs)
    · subst hx
      rw [List.foldl_cons, show PF.add (.fin a) (.fin q) = .fin (a + q) from rfl]
      rcases ih (fun y hy => hl y (List.mem_cons_of_mem _ hy)) (a + q) with h | ⟨q', hq', hle⟩
      · exact Or.inl h
      · right
        refine ⟨q', hq', ?_⟩
        have hll : (PF.fin q :: xs).length = xs.length + 1 := rfl
        rw [hll]
        push_cast
        nlinarith [hle, hq1]

lemma sum_clamped_ne_zero {dl : List PF} (hne : dl ≠ []) :
    pySumPF (dl.map clampPF) ≠ .fin 0 := by
  unfold pySumPF
  rcases foldl_add_shape (dl.map clampPF)
      (fun x hx => by
        rcases List.mem_map.mp hx with ⟨y, _, hy⟩
        rw [← hy]
        exact clampPF_shape y) 0 with h | ⟨q, hq, hle⟩
  · rw [h]
    intro hc
    cases hc
  · rw [hq]
    intro hc
    injection hc with hc2
    have hlen : 0 < (dl.map clampPF).length := by
      simp only [List.length_map]
      exact List.length_pos.mpr hne
    have : (0 : ℚ) < q := by
      have h1 : (1 : ℚ) ≤ ((dl.map clampPF).length : ℚ) := by
        exact_mod_cast hlen
      nlinarith [hle]
    rw [hc2] at this
    exact lt_irrefl 0 this

lemma normalize_list_ok {dl : List PF} (hne : dl ≠ []) :
    ∃ r, normalize_list dl = .ok r := by
  rw [normalize_list_def]
  obtain ⟨ys, hys, hlen⟩ := exceptMapM_div_ok (dl.map clampPF)
    (pySumPF (dl.map clampPF)) (sum_clamped_ne_zero hne)
  rw [hys, except_bind_ok]
  have hys_ne : ys ≠ [] := by
    intro hc
    rw [hc] at hlen
    simp only [List.length_nil, List.length_map] at hlen
    exact hne (List.length_eq_zero.mp hlen.symm)
  obtain ⟨y, ys', hy⟩ := List.exists_cons_of_ne_nil hys_ne
  subst hy
  rw [adjustLast_cons]
  exact ⟨_, rfl⟩

/-- C3 (amended): for every score list of the right, positive length,
the multiple-choice pipeline fails exactly when the raw score sum is
(finite) zero, and the failure is a `ZeroDivisionError` from the
simplex division — there is no dedicated normalization error type.
Non-finite scores never raise: their NaNs propagate into a successful
result (see the counterexample). -/
theorem mc_error_iff (opts : List String) (scores : List PF)
    (hlen : opts.length = scores.length) (hne : scores ≠ []) :
    (pySumPF scores = PF.fin 0 →
      generate_multiple_choice_forecast opts scores = .error .zeroDivisionError) ∧
    (pySumPF scores ≠ PF.fin 0 →
      ∃ d, generate_multiple_choice_forecast opts scores = .ok d) := by
  constructor
  · intro hsum
    rw [generate_multiple_choice_forecast_def, forecastProbs_def, if_neg (by simp [hlen]),
      hsum, exceptMapM_div_zero hne, except_bind_error, except_bind_error]
  · intro hsum
    rw [generate_multiple_choice_forecast_def, forecastProbs_def, if_neg (by simp [hlen])]
    obtain ⟨dl, hdl, hdlen⟩ := exceptMapM_div_ok scores (pySumPF scores) hsum
    rw [hdl, except_bind_ok]
    have hdl_ne : dl ≠ [] := by
      intro hc
      rw [hc] at hdlen
      exact hne (List.length_eq_zero.mp hdlen.symm)
    obtain ⟨r, hr⟩ := normalize_list_ok hdl_ne
    rw [hr, except_bind_ok]
    exact ⟨_, rfl⟩

/-- Witness for C3: a zero-sum score list fails with
`ZeroDivisionError`, a nonzero-sum one succeeds. -/
theorem mc_error_iff_witness :
    generate_multiple_choice_forecast ["A", "B"] [PF.fin 1, PF.fin (-1)] =
      .error .zeroDivisionError ∧
    ∃ d, generate_multiple_choice_forecast ["A", "B"] [PF.fin 1, PF.fin 1] = .ok d :=
  ⟨(mc_error_iff ["A", "B"] [PF.fin 1, PF.fin (-1)] rfl (by simp)).1
      (by with_unfolding_all decide),
   (mc_error_iff ["A", "B"] [PF.fin 1, PF.fin 1] rfl (by simp)).2
      (by with_unfolding_all decide)⟩

/-! ### Monotonicity of the synthesized CDF -/

/-- Key-monotonicity of an association list viewed as a finite map:
every entry with a smaller-or-equal key has a smaller-or-equal value. -/
abbrev KeysMono (d : List (ℚ × ℚ)) : Prop :=
  ∀ p ∈ d, ∀ q ∈ d, p.1 ≤ q.1 → p.2 ≤ q.2

/-- The two-point interpolation formula of `_linear_interpolation`. -/
def lerpQ (p q : ℚ × ℚ) (x : ℚ) : ℚ :=
  p.2 + (x - p.1) * (q.2 - p.2) / (q.1 - p.1)

/-- Structural recursion equivalent to the per-point interpolation of
`_linear_interpolation` on a table with strictly increasing keys. -/
def interpList : ℚ × ℚ → List (ℚ × ℚ) → ℚ → ℚ
  | p, [], _ => p.2
  | p, q :: tl, x =>
    if x ≤ p.1 then p.2 else if x < q.1 then lerpQ p q x else interpList q tl x

lemma liOne_expand (sp : List (ℚ × ℚ)) (x : ℚ) :
    liOne sp x =
      if (sp.map Prod.fst).contains x then
        (sp.map Prod.snd).getD ((sp.map Prod.fst).indexOf x) 0
      else if ((sp.map Prod.fst).takeWhile (fun a => decide (a < x))).length = 0 then
        (sp.map Prod.snd).getD 0 0
      else if ((sp.map Prod.fst).takeWhile (fun a => decide (a < x))).length
          = (sp.map Prod.fst).length then
        (sp.map Prod.snd).getLastD 0
      else
        (sp.map Prod.snd).getD
            (((sp.map Prod.fst).takeWhile (fun a => decide (a < x))).length - 1) 0 +
          (x - (sp.map Prod.fst).getD
              (((sp.map Prod.fst).takeWhile (fun a => decide (a < x))).length - 1) 0) *
            ((sp.map Prod.snd).getD
                (((sp.map Prod.fst).takeWhile (fun a => decide (a < x))).length) 0 -
              (sp.map Prod.snd).getD
                (((sp.map Prod.fst).takeWhile (fun a => decide (a < x))).length - 1) 0) /
            ((sp.map Prod.fst).getD
                (((sp.map Prod.fst).takeWhile (fun a => decide (a < x))).length) 0 -
              (sp.map Prod.fst).getD
                (((sp.map Prod.fst).takeWhile (fun a => decide (a < x))).length - 1) 0) :=
  rfl

lemma contains_false_of_not_mem {x : ℚ} {l : List ℚ} (h : x ∉ l) : l.contains x = false := by
  simp only [Bool.eq_false_iff]
  intro hc
  exact h (List.elem_iff.mp hc)

lemma chain_fst_head_lt {h : ℚ × ℚ} {t : List (ℚ × ℚ)}
    (hc : List.Chain' (fun a b : ℚ × ℚ => a.1 < b.1) (h :: t)) :
    ∀ p ∈ t, h.1 < p.1 := by
  induction t generalizing h with
  | nil => simp
  | cons q tl ih =>
    intro p hp
    have h1 : h.1 < q.1 := (List.chain'_cons.mp hc).1
    rcases List.mem_cons.mp hp with rfl | hp
    · exact h1
    · exact lt_trans h1 (ih (List.chain'_cons.mp hc).2 p hp)

lemma getLastD_cons_cons (a b d : ℚ) (l : List ℚ) :
    (a :: b :: l).getLastD d = (b :: l).getLastD d := by
  conv_lhs => rw [List.getLastD_cons, List.getLastD_cons]
  conv_rhs => rw [List.getLastD_cons]

lemma liOne_shift (h q : ℚ × ℚ) (tl : List (ℚ × ℚ)) (x : ℚ)
    (hhx : h.1 < x) (hqx : q.1 ≤ x) :
    liOne (h :: q :: tl) x = liOne (q :: tl) x := by
  rw [liOne_expand, liOne_expand]
  simp only [List.map_cons]
  by_cases hmem : x ∈ q.1 :: tl.map Prod.fst
  · have hc2 : (q.1 :: tl.map Prod.fst).contains x = true := by
      show List.elem x _ = true
      exact List.elem_iff.mpr hmem
    have hc1 : (h.1 :: q.1 :: tl.map Prod.fst).contains x = true := by
      rw [List.contains_cons, hc2]
      simp
    rw [hc1, hc2]
    rw [if_pos rfl, if_pos rfl]
    rw [List.indexOf_cons_ne _ (fun hc : h.1 = x => absurd hc (ne_of_lt hhx)), List.getD_cons_succ]
  · have hxq : x ≠ q.1 := by
      intro hc
      exact hmem (hc ▸ List.mem_cons_self _ _)
    have hqx' : q.1 < x := lt_of_le_of_ne hqx (fun hc => hxq hc.symm)
    have hc1 : (h.1 :: q.1 :: tl.map Prod.fst).contains x = false :=
      contains_false_of_not_mem (by
        intro hc
        rcases List.mem_cons.mp hc with hc | hc
        · exact absurd hc.symm (ne_of_lt hhx)
        · exact hmem hc)
    have hc2 : (q.1 :: tl.map Prod.fst).contains x = false := contains_false_of_not_mem hmem
    rw [hc1, hc2]
    simp only [Bool.false_eq_true, if_false]
    have ht2 : List.takeWhile (fun a => decide (a < x)) (q.1 :: tl.map Prod.fst)
        = q.1 :: List.takeWhile (fun a => decide (a < x)) (tl.map Prod.fst) := by
      rw [List.takeWhile_cons]
      simp [hqx']
    have ht1 : List.takeWhile (fun a => decide (a < x)) (h.1 :: q.1 :: tl.map Prod.fst)
        = h.1 :: q.1 :: List.takeWhile (fun a => decide (a < x)) (tl.map Prod.fst) := by
      rw [List.takeWhile_cons]
      simp only [decide_eq_true_eq]
      rw [if_pos hhx, ht2]
    rw [ht1, ht2]
    simp only [List.length_cons]
    obtain ⟨j, hj⟩ : ∃ j, ((tl.map Prod.fst).takeWhile (fun a => decide (a < x))).length = j :=
      ⟨_, rfl⟩
    rw [hj]
    rw [if_neg (by omega : ¬ (j + 1 + 1 = 0)), if_neg (by omega : ¬ (j + 1 = 0))]
    by_cases hlast : j + 1 = (tl.map Prod.fst).length + 1
    · rw [if_pos (by omega : j + 1 + 1 = (tl.map Prod.fst).length + 1 + 1), if_pos hlast]
      exact getLastD_cons_cons _ _ _ _
    · rw [if_neg (by omega : ¬ (j + 1 + 1 = (tl.map Prod.fst).length + 1 + 1)), if_neg hlast]
      rw [(by omega : j + 1 + 1 - 1 = j + 1), (by omega : j + 1 - 1 = j)]
      rw [List.getD_cons_succ, List.getD_cons_succ, List.getD_cons_succ, List.getD_cons_succ,
        List.getD_cons_succ]

lemma liOne_eq_interpList (x : ℚ) : ∀ (t : List (ℚ × ℚ)) (h : ℚ × ℚ),
    List.Chain' (fun a b : ℚ × ℚ => a.1 < b.1) (h :: t) →
    liOne (h :: t) x = interpList h t x := by
  intro t
  induction t with
  | nil =>
    intro h _
    show liOne [h] x = h.2
    rw [liOne_expand]
    simp only [List.map_cons, List.map_nil]
    by_cases hx : x = h.1
    · have hcc : ([h.1]).contains x = true := by
        rw [List.contains_cons]
        simp [hx]
      rw [hcc, if_pos rfl, hx, List.indexOf_cons_self, List.getD_cons_zero]
    · have hcc : ([h.1]).contains x = false := contains_false_of_not_mem (by simpa using hx)
      rw [hcc]
      simp only [Bool.false_eq_true, if_false]
      by_cases hlt : h.1 < x
      · have ht : List.takeWhile (fun a => decide (a < x)) [h.1] = [h.1] := by simp [hlt]
        rw [ht]
        simp
      · have ht : List.takeWhile (fun a => decide (a < x)) [h.1] = [] := by simp [hlt]
        rw [ht]
        simp
  | cons q tl ih =>
    intro h hc
    have hhq : h.1 < q.1 := (List.chain'_cons.mp hc).1
    have hctail : List.Chain' (fun a b : ℚ × ℚ => a.1 < b.1) (q :: tl) :=
      (List.chain'_cons.mp hc).2
    show liOne (h :: q :: tl) x = if x ≤ h.1 then h.2 else if x < q.1 then lerpQ h q x
      else interpList q tl x
    by_cases h1 : x ≤ h.1
    · rw [if_pos h1]
      rcases eq_or_lt_of_le h1 with heq | hlt
      · rw [liOne_expand]
        simp only [List.map_cons]
        have hcc : (h.1 :: q.1 :: tl.map Prod.fst).contains x = true := by
          rw [List.contains_cons]
          simp [heq]
        rw [hcc, if_pos rfl, heq, List.indexOf_cons_self, List.getD_cons_zero]
      · rw [liOne_expand]
        simp only [List.map_cons]
        have hnm : x ∉ h.1 :: q.1 :: tl.map Prod.fst := by
          intro hcm
          rcases List.mem_cons.mp hcm with hcm | hcm
          · exact absurd hcm (ne_of_lt hlt)
          · rcases List.mem_cons.mp hcm with hcm | hcm
            · exact absurd hcm (ne_of_lt (lt_trans hlt hhq))
            · obtain ⟨p, hp, hps⟩ := List.mem_map.mp hcm
              have := chain_fst_head_lt hc p (List.mem_cons.mpr (Or.inr hp))
              rw [hps] at this
              exact absurd rfl (ne_of_lt (lt_trans hlt this))
        rw [contains_false_of_not_mem hnm]
        simp only [Bool.false_eq_true, if_false]
        have ht : List.takeWhile (fun a => decide (a < x)) (h.1 :: q.1 :: tl.map Prod.fst)
            = [] := by
          rw [List.takeWhile_cons]
          simp [not_lt.mpr (le_of_lt hlt)]
        rw [ht]
        simp
    · rw [if_neg h1]
      have hhx : h.1 < x := lt_of_not_le h1
      by_cases h2 : x < q.1
      · rw [if_pos h2]
        rw [liOne_expand]
        simp only [List.map_cons]
        have hnm : x ∉ h.1 :: q.1 :: tl.map Prod.fst := by
          intro hcm
          rcases List.mem_cons.mp hcm with hcm | hcm
          · exact absurd hcm.symm (ne_of_lt hhx)
          · rcases List.mem_cons.mp hcm with hcm | hcm
            · exact absurd hcm (ne_of_lt h2)
            · obtain ⟨p, hp, hps⟩ := List.mem_map.mp hcm
              have := chain_fst_head_lt hctail p hp
              rw [hps] at this
              exact absurd rfl (ne_of_lt (lt_trans h2 this))
        rw [contains_false_of_not_mem hnm]
        simp only [Bool.false_eq_true, if_false]
        have ht : List.takeWhile (fun a => decide (a < x)) (h.1 :: q.1 :: tl.map Prod.fst)
            = [h.1] := by
          rw [List.takeWhile_cons]
          simp only [decide_eq_true_eq]
          rw [if_pos hhx, List.takeWhile_cons]
          simp [not_lt.mpr (le_of_lt h2)]
        rw [ht]
        simp only [List.length_cons, List.length_nil, List.length_map]
        rw [if_neg (by omega : ¬ (0 + 1 = 0)),
          if_neg (by omega : ¬ (0 + 1 = tl.length + 1 + 1))]
        rw [(by omega : 0 + 1 - 1 = 0)]
        rw [List.getD_cons_zero, List.getD_cons_zero,
          (by omega : 0 + 1 = Nat.succ 0), List.getD_cons_succ, List.getD_cons_succ,
          List.getD_cons_zero, List.getD_cons_zero]
        rfl
      · rw [if_neg h2]
        rw [liOne_shift h q tl x hhx (le_of_not_lt h2)]
        exact ih q hctail

lemma lerpQ_mono (p q : ℚ × ℚ) (hk : p.1 < q.1) (hv : p.2 ≤ q.2) {x x' : ℚ}
    (hxx : x ≤ x') : lerpQ p q x ≤ lerpQ p q x' := by
  unfold lerpQ
  rw [mul_div_assoc, mul_div_assoc]
  have hs : 0 ≤ (q.2 - p.2) / (q.1 - p.1) := div_nonneg (by linarith) (by linarith)
  have := mul_le_mul_of_nonneg_right (show x - p.1 ≤ x' - p.1 by linarith) hs
  linarith

lemma lerpQ_le_snd (p q : ℚ × ℚ) (x : ℚ) (hk : p.1 < q.1) (hv : p.2 ≤ q.2)
    (hx : x ≤ q.1) : lerpQ p q x ≤ q.2 := by
  unfold lerpQ
  rw [mul_div_assoc]
  have hs : 0 ≤ (q.2 - p.2) / (q.1 - p.1) := div_nonneg (by linarith) (by linarith)
  have h1 : (x - p.1) * ((q.2 - p.2) / (q.1 - p.1))
      ≤ (q.1 - p.1) * ((q.2 - p.2) / (q.1 - p.1)) :=
    mul_le_mul_of_nonneg_right (by linarith) hs
  have h2 : (q.1 - p.1) * ((q.2 - p.2) / (q.1 - p.1)) = q.2 - p.2 := by
    rw [mul_comm]
    exact div_mul_cancel₀ _ (by intro hc; rw [sub_eq_zero] at hc; exact ne_of_lt hk hc.symm)
  linarith

lemma fst_le_lerpQ (p q : ℚ × ℚ) (x : ℚ) (hk : p.1 < q.1) (hv : p.2 ≤ q.2)
    (hx : p.1 ≤ x) : p.2 ≤ lerpQ p q x := by
  unfold lerpQ
  rw [mul_div_assoc]
  have hs : 0 ≤ (q.2 - p.2) / (q.1 - p.1) := div_nonneg (by linarith) (by linarith)
  have := mul_nonneg (show (0:ℚ) ≤ x - p.1 by linarith) hs
  linarith

lemma interpList_ge_head (x : ℚ) : ∀ (l : List (ℚ × ℚ)) (p : ℚ × ℚ),
    List.Chain' (fun a b : ℚ × ℚ => a.1 < b.1) (p :: l) →
    List.Chain' (fun a b : ℚ × ℚ => a.2 ≤ b.2) (p :: l) →
    p.2 ≤ interpList p l x := by
  intro l
  induction l with
  | nil =>
    intro p _ _
    exact le_refl _
  | cons q tl ih =>
    intro p hk hv
    have hpq : p.1 < q.1 := (List.chain'_cons.mp hk).1
    have hpq2 : p.2 ≤ q.2 := (List.chain'_cons.mp hv).1
    show p.2 ≤ if x ≤ p.1 then p.2 else if x < q.1 then lerpQ p q x else interpList q tl x
    by_cases h1 : x ≤ p.1
    · rw [if_pos h1]
    · rw [if_neg h1]
      by_cases h2 : x < q.1
      · rw [if_pos h2]
        exact fst_le_lerpQ p q x hpq hpq2 (le_of_lt (lt_of_not_le h1))
      · rw [if_neg h2]
        exact le_trans hpq2
          (ih q (List.chain'_cons.mp hk).2 (List.chain'_cons.mp hv).2)

lemma interpList_mono {x x' : ℚ} (hxx : x ≤ x') : ∀ (l : List (ℚ × ℚ)) (p : ℚ × ℚ),
    List.Chain' (fun a b : ℚ × ℚ => a.1 < b.1) (p :: l) →
    List.Chain' (fun a b : ℚ × ℚ => a.2 ≤ b.2) (p :: l) →
    interpList p l x ≤ interpList p l x' := by
  intro l
  induction l with
  | nil =>
    intro p _ _
    exact le_refl _
  | cons q tl ih =>
    intro p hk hv
    have hpq : p.1 < q.1 := (List.chain'_cons.mp hk).1
    have hpq2 : p.2 ≤ q.2 := (List.chain'_cons.mp hv).1
    have hk' := (List.chain'_cons.mp hk).2
    have hv' := (List.chain'_cons.mp hv).2
    by_cases h1 : x ≤ p.1
    · have hL : interpList p (q :: tl) x = p.2 := by
        show (if x ≤ p.1 then p.2 else _) = p.2
        rw [if_pos h1]
      rw [hL]
      exact interpList_ge_head x' (q :: tl) p hk hv
    · have h1' : ¬ x' ≤ p.1 := fun hc => h1 (le_trans hxx hc)
      by_cases h2 : x < q.1
      · have hL : interpList p (q :: tl) x = lerpQ p q x := by
          show (if x ≤ p.1 then p.2 else if x < q.1 then lerpQ p q x else _) = _
          rw [if_neg h1, if_pos h2]
        rw [hL]
        by_cases h3 : x' < q.1
        · have hR : interpList p (q :: tl) x' = lerpQ p q x' := by
            show (if x' ≤ p.1 then p.2 else if x' < q.1 then lerpQ p q x' else _) = _
            rw [if_neg h1', if_pos h3]
          rw [hR]
          exact lerpQ_mono p q hpq hpq2 hxx
        · have hR : interpList p (q :: tl) x' = interpList q tl x' := by
            show (if x' ≤ p.1 then p.2 else if x' < q.1 then lerpQ p q x' else _) = _
            rw [if_neg h1', if_neg h3]
          rw [hR]
          exact le_trans (lerpQ_le_snd p q x hpq hpq2 (le_of_lt h2))
            (interpList_ge_head x' tl q hk' hv')
      · have h3 : ¬ x' < q.1 := fun hc => h2 (lt_of_le_of_lt hxx hc)
        have hL : interpList p (q :: tl) x = interpList q tl x := by
          show (if x ≤ p.1 then p.2 else if x < q.1 then lerpQ p q x else _) = _
          rw [if_neg h1, if_neg h2]
        have hR : interpList p (q :: tl) x' = interpList q tl x' := by
          show (if x' ≤ p.1 then p.2 else if x' < q.1 then lerpQ p q x' else _) = _
          rw [if_neg h1', if_neg h3]
        rw [hL, hR]
        exact ih q hk' hv'

lemma liOne_mono {sp : List (ℚ × ℚ)}
    (hk : List.Chain' (fun a b : ℚ × ℚ => a.1 < b.1) sp)
    (hv : List.Chain' (fun a b : ℚ × ℚ => a.2 ≤ b.2) sp) (hne : sp ≠ [])
    {x x' : ℚ} (hxx : x ≤ x') : liOne sp x ≤ liOne sp x' := by
  match sp, hne with
  | h :: t, _ =>
    rw [liOne_eq_interpList x t h hk, liOne_eq_interpList x' t h hk]
    exact interpList_mono hxx t h hk hv

instance : IsTotal (ℚ × ℚ) pairLe :=
  ⟨by
    intro a b
    rcases lt_trichotomy a.1 b.1 with h | h | h
    · exact Or.inl (Or.inl h)
    · rcases le_total a.2 b.2 with h2 | h2
      · exact Or.inl (Or.inr ⟨h, h2⟩)
      · exact Or.inr (Or.inr ⟨h.symm, h2⟩)
    · exact Or.inr (Or.inl h)⟩

instance : IsTrans (ℚ × ℚ) pairLe :=
  ⟨by
    intro a b c hab hbc
    rcases hab with h1 | ⟨h1, h1'⟩
    · rcases hbc with h2 | ⟨h2, h2'⟩
      · exact Or.inl (lt_trans h1 h2)
      · exact Or.inl (h2 ▸ h1)
    · rcases hbc with h2 | ⟨h2, h2'⟩
      · exact Or.inl (h1 ▸ h2)
      · exact Or.inr ⟨h1.trans h2, le_trans h1' h2'⟩⟩

lemma pySortPairs_perm (l : List (ℚ × ℚ)) : (pySortPairs l).Perm l :=
  List.perm_insertionSort _ l

lemma pySortPairs_sorted (l : List (ℚ × ℚ)) : (pySortPairs l).Pairwise pairLe :=
  List.sorted_insertionSort _ l

lemma keysMono_of_perm {d d' : List (ℚ × ℚ)} (hp : d.Perm d') (h : KeysMono d) :
    KeysMono d' :=
  fun p hpm q hqm hle => h p (hp.symm.subset hpm) q (hp.symm.subset hqm) hle

lemma pyKeys_nodup_of_perm {d d' : List (ℚ × ℚ)} (hp : d.Perm d')
    (h : (pyKeys d).Nodup) : (pyKeys d').Nodup :=
  (hp.map Prod.fst).nodup h

lemma sorted_pairs_strict {l : List (ℚ × ℚ)} (hs : l.Pairwise pairLe)
    (hnd : (pyKeys l).Nodup) : l.Pairwise (fun a b : ℚ × ℚ => a.1 < b.1) := by
  have hnd' : l.Pairwise (fun a b : ℚ × ℚ => a.1 ≠ b.1) := List.pairwise_map.mp hnd
  refine (hs.and hnd').imp ?_
  intro a b hab
  rcases hab.1 with h | ⟨he, _⟩
  · exact h
  · exact absurd he hab.2

lemma sorted_pairs_val {l : List (ℚ × ℚ)}
    (hstrict : l.Pairwise (fun a b : ℚ × ℚ => a.1 < b.1)) (hm : KeysMono l) :
    l.Pairwise (fun a b : ℚ × ℚ => a.2 ≤ b.2) := by
  refine List.Pairwise.imp_of_mem ?_ hstrict
  intro a b ha hb hab
  exact hm a ha b hb (le_of_lt hab)

lemma mem_pySet_weak {κ α : Type} [DecidableEq κ] {d : List (κ × α)} {k : κ} {v : α}
    {r : κ × α} (hr : r ∈ pySet d k v) : r = (k, v) ∨ r ∈ d := by
  induction d with
  | nil =>
    rw [show pySet [] k v = [(k, v)] from rfl] at hr
    exact Or.inl (List.mem_singleton.mp hr)
  | cons p tl ih =>
    rw [pySet] at hr
    by_cases hp : p.1 = k
    · rw [if_pos hp] at hr
      rcases List.mem_cons.mp hr with h | h
      · exact Or.inl h
      · exact Or.inr (List.mem_cons.mpr (Or.inr h))
    · rw [if_neg hp] at hr
      rcases List.mem_cons.mp hr with h | h
      · exact Or.inr (List.mem_cons.mpr (Or.inl h))
      · rcases ih h with h' | h'
        · exact Or.inl h'
        · exact Or.inr (List.mem_cons.mpr (Or.inr h'))

lemma mem_pySet_strong {κ α : Type} [DecidableEq κ] {d : List (κ × α)} {k : κ} {v : α}
    (hnd : (pyKeys d).Nodup) {r : κ × α} (hr : r ∈ pySet d k v) :
    r = (k, v) ∨ (r ∈ d ∧ r.1 ≠ k) := by
  induction d with
  | nil =>
    rw [show pySet [] k v = [(k, v)] from rfl] at hr
    exact Or.inl (List.mem_singleton.mp hr)
  | cons p tl ih =>
    have hnd1 : p.1 ∉ pyKeys tl := by
      unfold pyKeys at hnd ⊢
      exact (List.nodup_cons.mp hnd).1
    have hnd2 : (pyKeys tl).Nodup := by
      unfold pyKeys at hnd ⊢
      exact (List.nodup_cons.mp hnd).2
    rw [pySet] at hr
    by_cases hp : p.1 = k
    · rw [if_pos hp] at hr
      rcases List.mem_cons.mp hr with h | h
      · exact Or.inl h
      · refine Or.inr ⟨List.mem_cons.mpr (Or.inr h), ?_⟩
        intro hc
        exact hnd1 (hp ▸ hc ▸ List.mem_map_of_mem Prod.fst h)
    · rw [if_neg hp] at hr
      rcases List.mem_cons.mp hr with h | h
      · exact Or.inr ⟨List.mem_cons.mpr (Or.inl h), h ▸ hp⟩
      · rcases ih hnd2 h with h' | h'
        · exact Or.inl h'
        · exact Or.inr ⟨List.mem_cons.mpr (Or.inr h'.1), h'.2⟩

lemma keysMono_pySet_top {d : List (ℚ × ℚ)} {k v : ℚ} (hnd : (pyKeys d).Nodup)
    (hm : KeysMono d) (hk : ∀ p ∈ d, p.1 ≤ k) (hv : ∀ p ∈ d, p.2 ≤ v) :
    KeysMono (pySet d k v) := by
  intro r hr s hs hle
  rcases mem_pySet_strong hnd hr with hr' | ⟨hr', hrk⟩
  · rcases mem_pySet_strong hnd hs with hs' | ⟨hs', hsk⟩
    · rw [hr', hs']
    · rw [hr'] at hle
      exact absurd (le_antisymm (hk s hs') hle) hsk
  · rcases mem_pySet_strong hnd hs with hs' | ⟨hs', _⟩
    · rw [hs']
      exact hv r hr'
    · exact hm r hr' s hs' hle

lemma keysMono_pySet_bottom {d : List (ℚ × ℚ)} {k v : ℚ} (hnd : (pyKeys d).Nodup)
    (hm : KeysMono d) (hk : ∀ p ∈ d, k ≤ p.1) (hv : ∀ p ∈ d, v ≤ p.2) :
    KeysMono (pySet d k v) := by
  intro r hr s hs hle
  rcases mem_pySet_strong hnd hr with hr' | ⟨hr', hrk⟩
  · rcases mem_pySet_strong hnd hs with hs' | ⟨hs', _⟩
    · rw [hr', hs']
    · rw [hr']
      exact hv s hs'
  · rcases mem_pySet_strong hnd hs with hs' | ⟨hs', hsk⟩
    · rw [hs'] at hle
      exact absurd (le_antisymm hle (hk r hr')) hrk
    · exact hm r hr' s hs' hle

lemma pyGet_mem {κ α : Type} [DecidableEq κ] {d : List (κ × α)} {k : κ} {v : α}
    (h : pyGet d k = some v) : (k, v) ∈ d := by
  unfold pyGet at h
  cases hf : d.find? (fun p => decide (p.1 = k)) with
  | none =>
    rw [hf] at h
    cases h
  | some p =>
    rw [hf] at h
    have hp : p.1 = k := by
      have := List.find?_some hf
      simpa using this
    have hm : p ∈ d := List.mem_of_find?_eq_some hf
    have hv : p.2 = v := by
      cases h
      rfl
    have : p = (k, v) := Prod.ext hp hv
    exact this ▸ hm

lemma pyGet_isSome_of_mem {κ α : Type} [DecidableEq κ] {d : List (κ × α)} {k : κ}
    (h : k ∈ pyKeys d) : ∃ v, pyGet d k = some v := by
  induction d with
  | nil => simp [pyKeys] at h
  | cons p tl ih =>
    rw [pyGet_cons]
    by_cases hp : p.1 = k
    · exact ⟨p.2, by rw [if_pos hp]⟩
    · have : k ∈ pyKeys tl := by
        unfold pyKeys at h ⊢
        rcases List.mem_cons.mp h with h1 | h1
        · exact absurd h1.symm hp
        · exact h1
      obtain ⟨v, hv⟩ := ih this
      exact ⟨v, by rw [if_neg hp, hv]⟩

lemma pyGetD_mem {d : List (ℚ × ℚ)} {k : ℚ} (h : k ∈ pyKeys d) :
    (k, pyGetD d k 0) ∈ d := by
  obtain ⟨v, hv⟩ := pyGet_isSome_of_mem h
  have : pyGetD d k 0 = v := by
    unfold pyGetD
    rw [hv]
    rfl
  rw [this]
  exact pyGet_mem hv

lemma foldl_max_spec (t : List ℚ) : ∀ h : ℚ, h ≤ t.foldl max h ∧
    (∀ x ∈ t, x ≤ t.foldl max h) ∧ (t.foldl max h = h ∨ t.foldl max h ∈ t) := by
  induction t with
  | nil =>
    intro h
    exact ⟨le_refl _, by simp, Or.inl rfl⟩
  | cons a tl ih =>
    intro h
    rw [List.foldl_cons]
    obtain ⟨h1, h2, h3⟩ := ih (max h a)
    refine ⟨le_trans (le_max_left h a) h1, ?_, ?_⟩
    · intro x hx
      rcases List.mem_cons.mp hx with rfl | hx
      · exact le_trans (le_max_right h x) h1
      · exact h2 x hx
    · rcases h3 with h3 | h3
      · rcases max_choice h a with hm | hm
        · exact Or.inl (h3.trans hm)
        · exact Or.inr (List.mem_cons.mpr (Or.inl (h3.trans hm)))
      · exact Or.inr (List.mem_cons.mpr (Or.inr h3))

lemma foldl_min_spec (t : List ℚ) : ∀ h : ℚ, t.foldl min h ≤ h ∧
    (∀ x ∈ t, t.foldl min h ≤ x) ∧ (t.foldl min h = h ∨ t.foldl min h ∈ t) := by
  induction t with
  | nil =>
    intro h
    exact ⟨le_refl _, by simp, Or.inl rfl⟩
  | cons a tl ih =>
    intro h
    rw [List.foldl_cons]
    obtain ⟨h1, h2, h3⟩ := ih (min h a)
    refine ⟨le_trans h1 (min_le_left h a), ?_, ?_⟩
    · intro x hx
      rcases List.mem_cons.mp hx with rfl | hx
      · exact le_trans h1 (min_le_right h x)
      · exact h2 x hx
    · rcases h3 with h3 | h3
      · rcases min_choice h a with hm | hm
        · exact Or.inl (h3.trans hm)
        · exact Or.inr (List.mem_cons.mpr (Or.inl (h3.trans hm)))
      · exact Or.inr (List.mem_cons.mpr (Or.inr h3))

lemma pyMaxD_spec {l : List ℚ} (hne : l ≠ []) :
    pyMaxD l ∈ l ∧ ∀ x ∈ l, x ≤ pyMaxD l := by
  match l, hne with
  | h :: t, _ =>
    show (t.foldl max h ∈ h :: t) ∧ _
    obtain ⟨h1, h2, h3⟩ := foldl_max_spec t h
    refine ⟨?_, ?_⟩
    · rcases h3 with h3 | h3
      · exact List.mem_cons.mpr (Or.inl h3)
      · exact List.mem_cons.mpr (Or.inr h3)
    · intro x hx
      rcases List.mem_cons.mp hx with rfl | hx
      · exact h1
      · exact h2 x hx

lemma pyMinD_spec {l : List ℚ} (hne : l ≠ []) :
    pyMinD l ∈ l ∧ ∀ x ∈ l, pyMinD l ≤ x := by
  match l, hne with
  | h :: t, _ =>
    show (t.foldl min h ∈ h :: t) ∧ _
    obtain ⟨h1, h2, h3⟩ := foldl_min_spec t h
    refine ⟨?_, ?_⟩
    · rcases h3 with h3 | h3
      · exact List.mem_cons.mpr (Or.inl h3)
      · exact List.mem_cons.mpr (Or.inr h3)
    · intro x hx
      rcases List.mem_cons.mp hx with rfl | hx
      · exact h1
      · exact h2 x hx

lemma pySet_ne_nil {κ α : Type} [DecidableEq κ] (d : List (κ × α)) (k : κ) (v : α) :
    pySet d k v ≠ [] := by
  cases d with
  | nil => simp [pySet]
  | cons p tl =>
    rw [pySet]
    by_cases hp : p.1 = k
    · rw [if_pos hp]
      simp
    · rw [if_neg hp]
      simp

lemma mem_keys_pySet {κ α : Type} [DecidableEq κ] (d : List (κ × α)) (k k' : κ) (v : α)
    (h : k' ∈ pyKeys d) : k' ∈ pyKeys (pySet d k v) := by
  rw [pyKeys_pySet]
  by_cases hk : k ∈ pyKeys d
  · rw [if_pos hk]
    exact h
  · rw [if_neg hk]
    exact List.mem_append.mpr (Or.inl h)

lemma invFold (L : List (ℚ × ℚ)) : ∀ acc : List (ℚ × ℚ),
    (pyKeys acc).Nodup → KeysMono acc →
    (∀ e ∈ acc, ∀ p ∈ L, e.1 ≤ p.2 ∧ e.2 ≤ p.1) →
    L.Pairwise (fun a b : ℚ × ℚ => a.1 ≤ b.1 ∧ a.2 ≤ b.2) →
    (pyKeys (L.foldl (fun d p => pySet d p.2 p.1) acc)).Nodup ∧
      KeysMono (L.foldl (fun d p => pySet d p.2 p.1) acc) := by
  induction L with
  | nil =>
    intro acc h1 h2 _ _
    exact ⟨h1, h2⟩
  | cons p tl ih =>
    intro acc h1 h2 hb hP
    rw [List.foldl_cons]
    obtain ⟨hPhead, hPtail⟩ := List.pairwise_cons.mp hP
    refine ih _ (pyKeys_nodup_pySet _ _ h1) ?_ ?_ hPtail
    · exact keysMono_pySet_top h1 h2
        (fun e he => (hb e he p (List.mem_cons_self _ _)).1)
        (fun e he => (hb e he p (List.mem_cons_self _ _)).2)
    · intro e he q hq
      rcases mem_pySet_weak he with rfl | he'
      · exact ⟨(hPhead q hq).2, (hPhead q hq).1⟩
      · exact hb e he' q (List.mem_cons.mpr (Or.inr hq))

lemma invertedDict_props {spv : List (ℚ × ℚ)}
    (hP : spv.Pairwise (fun a b : ℚ × ℚ => a.1 < b.1))
    (hV : spv.Pairwise (fun a b : ℚ × ℚ => a.2 ≤ b.2)) :
    (pyKeys (invertedDict spv)).Nodup ∧ KeysMono (invertedDict spv) := by
  unfold invertedDict
  refine invFold _ [] (by simp [pyKeys]) ?_ ?_ ?_
  · intro p hp
    exact absurd hp (List.not_mem_nil p)
  · intro e he
    exact absurd he (List.not_mem_nil e)
  · rw [List.pairwise_map]
    refine (hP.and hV).imp ?_
    intro a b hab
    refine ⟨?_, hab.2⟩
    show a.1 / 100 ≤ b.1 / 100
    have := hab.1
    linarith

lemma foldl_pySet_ne_nil (L : List (ℚ × ℚ)) : ∀ acc : List (ℚ × ℚ),
    (acc ≠ [] ∨ L ≠ []) → L.foldl (fun d p => pySet d p.2 p.1) acc ≠ [] := by
  induction L with
  | nil =>
    intro acc h
    rcases h with h | h
    · exact h
    · exact absurd rfl h
  | cons p tl ih =>
    intro acc _
    rw [List.foldl_cons]
    exact ih _ (Or.inl (pySet_ne_nil _ _ _))

lemma invertedDict_ne_nil {spv : List (ℚ × ℚ)} (h : spv ≠ []) :
    invertedDict spv ≠ [] := by
  unfold invertedDict
  refine foldl_pySet_ne_nil _ [] (Or.inr ?_)
  simpa using h

lemma pyInt_eq_floor_of_nonneg {q : ℚ} (h : 0 ≤ q) : pyInt q = ⌊q⌋ := by
  unfold pyInt
  rw [Rat.floor_def]
  exact Int.tdiv_eq_ediv (Rat.num_nonneg.mpr h) (by positivity)

lemma anchor_upper_key_ge {z : ℤ} (h0 : 0 ≤ z) (h100 : z ≤ 100) :
    ((z : ℚ)) ≤ ((pyInt (100 - 1 / 2 * (100 - (z : ℚ))) : ℤ) : ℚ) := by
  have harg : (0 : ℚ) ≤ 100 - 1 / 2 * (100 - (z : ℚ)) := by
    have : ((z : ℚ)) ≥ 0 := by exact_mod_cast h0
    linarith
  rw [pyInt_eq_floor_of_nonneg harg]
  have : z ≤ ⌊(100 : ℚ) - 1 / 2 * (100 - (z : ℚ))⌋ := by
    rw [Int.le_floor]
    have : ((z : ℚ)) ≤ 100 := by exact_mod_cast h100
    push_cast
    linarith
  exact_mod_cast this

lemma anchor_lower_key_le {z : ℤ} (h0 : 0 ≤ z) :
    ((pyInt (1 / 2 * (z : ℚ)) : ℤ) : ℚ) ≤ (z : ℚ) ∧
      (0 : ℚ) ≤ ((pyInt (1 / 2 * (z : ℚ)) : ℤ) : ℚ) := by
  have hz : (0 : ℚ) ≤ (z : ℚ) := by exact_mod_cast h0
  have harg : (0 : ℚ) ≤ 1 / 2 * (z : ℚ) := by linarith
  rw [pyInt_eq_floor_of_nonneg harg]
  constructor
  · have h1 : ((⌊(1 : ℚ) / 2 * (z : ℚ)⌋ : ℤ) : ℚ) ≤ 1 / 2 * (z : ℚ) := Int.floor_le _
    linarith
  · have : (0 : ℤ) ≤ ⌊(1 : ℚ) / 2 * (z : ℚ)⌋ := by
      rw [Int.le_floor]
      push_cast
      linarith
    exact_mod_cast this

lemma bufferFor_nonneg {rs : ℚ} (h : 0 ≤ rs) : 0 ≤ bufferFor rs := by
  unfold bufferFor
  split_ifs
  · norm_num
  · linarith

lemma bufferFor_le {rmin rmax : ℚ} (h : rmin ≤ rmax) :
    rmin + bufferFor (rmax - rmin) ≤ rmax - bufferFor (rmax - rmin) := by
  unfold bufferFor
  split_ifs with h1
  · linarith
  · linarith

lemma adjustBoundValue_mono (ou ol : Bool) {rmin rmax buf : ℚ}
    (hmm : rmin + buf ≤ rmax - buf) {v w : ℚ} (hvw : v ≤ w) :
    adjustBoundValue ou ol rmin rmax buf v ≤ adjustBoundValue ou ol rmin rmax buf w := by
  unfold adjustBoundValue
  cases ou <;> cases ol <;>
    simp only [Bool.not_eq_true, not_false_iff, not_true, false_and, true_and,
      if_false, ge_iff_le] <;>
    first
      | (split_ifs <;> first | linarith | (exfalso; push_neg at *; linarith))
      | linarith

lemma adjustBoundValue_le_upper (ol : Bool) {rmin rmax buf v : ℚ}
    (hmm : rmin + buf ≤ rmax - buf) :
    adjustBoundValue false ol rmin rmax buf v ≤ rmax - buf := by
  unfold adjustBoundValue
  cases ol <;>
    simp only [Bool.not_eq_true, not_false_iff, not_true, false_and, true_and,
      if_false, ge_iff_le] <;>
    split_ifs <;> first | linarith | (exfalso; push_neg at *; linarith)

lemma adjustBoundValue_ge_lower (ou : Bool) {rmin rmax buf v : ℚ}
    (hmm : rmin + buf ≤ rmax - buf) :
    rmin + buf ≤ adjustBoundValue ou false rmin rmax buf v := by
  unfold adjustBoundValue
  cases ou <;>
    simp only [Bool.not_eq_true, not_false_iff, not_true, false_and, true_and,
      if_false, ge_iff_le] <;>
    split_ifs <;> first | linarith | (exfalso; push_neg at *; linarith)

lemma pyKeys_adjustedDict (pv : List (ℚ × ℚ)) (ou ol : Bool) (rmin rmax buf : ℚ) :
    pyKeys (adjustedDict pv ou ol rmin rmax buf) = pyKeys pv := by
  unfold adjustedDict pyKeys
  rw [List.map_map]
  rfl

lemma mem_adjustedDict {pv : List (ℚ × ℚ)} {ou ol : Bool} {rmin rmax buf : ℚ}
    {r : ℚ × ℚ} (h : r ∈ adjustedDict pv ou ol rmin rmax buf) :
    ∃ p ∈ pv, r = (p.1, adjustBoundValue ou ol rmin rmax buf p.2) := by
  unfold adjustedDict at h
  obtain ⟨p, hp, hr⟩ := List.mem_map.mp h
  exact ⟨p, hp, hr.symm⟩

lemma keysMono_adjustedDict {pv : List (ℚ × ℚ)} (ou ol : Bool) {rmin rmax buf : ℚ}
    (hmm : rmin + buf ≤ rmax - buf) (hm : KeysMono pv) :
    KeysMono (adjustedDict pv ou ol rmin rmax buf) := by
  intro r hr s hs hle
  obtain ⟨p, hp, rfl⟩ := mem_adjustedDict hr
  obtain ⟨q, hq, rfl⟩ := mem_adjustedDict hs
  exact adjustBoundValue_mono ou ol hmm (hm p hp q hq hle)

lemma mem_keys_pySet_cases {κ α : Type} [DecidableEq κ] {d : List (κ × α)} {k k' : κ}
    {v : α} (h : k' ∈ pyKeys (pySet d k v)) : k' ∈ pyKeys d ∨ k' = k := by
  rw [pyKeys_pySet] at h
  by_cases hk : k ∈ pyKeys d
  · rw [if_pos hk] at h
    exact Or.inl h
  · rw [if_neg hk] at h
    rcases List.mem_append.mp h with h | h
    · exact Or.inl h
    · exact Or.inr (List.mem_singleton.mp h)

lemma upperAnchored_good {d1 : List (ℚ × ℚ)} (ou : Bool) {ub buf pmax pmin : ℚ}
    (hnd : (pyKeys d1).Nodup) (hmono : KeysMono d1) (hne : d1 ≠ [])
    (hk0 : ∀ k ∈ pyKeys d1, 0 ≤ k)
    (hkmax : ∀ k ∈ pyKeys d1, k ≤ pmax) (hkmin : ∀ k ∈ pyKeys d1, pmin ≤ k)
    (hpmax_mem : pmax ∈ pyKeys d1) (hpmin_mem : pmin ∈ pyKeys d1)
    (hzmax : ∃ z : ℤ, pmax = (z : ℚ) ∧ 0 ≤ z ∧ z ≤ 100)
    (hclosed : ou = false → ∀ r ∈ d1, r.2 ≤ ub - buf)
    (hbuf0 : 0 ≤ buf) :
    (pyKeys (upperAnchored d1 ou ub pmax)).Nodup ∧
      KeysMono (upperAnchored d1 ou ub pmax) ∧
      (∀ r ∈ upperAnchored d1 ou ub pmax, r ∈ d1 ∨ r.2 = ub) ∧
      (∀ k ∈ pyKeys (upperAnchored d1 ou ub pmax), pmin ≤ k ∧ 0 ≤ k) ∧
      pmin ∈ pyKeys (upperAnchored d1 ou ub pmax) ∧
      upperAnchored d1 ou ub pmax ≠ [] := by
  obtain ⟨zmax, hzmaxeq, hzmax0, hzmax100⟩ := hzmax
  have hpmax0 : 0 ≤ pmax := hk0 pmax hpmax_mem
  have hpmax100 : pmax ≤ 100 := by
    rw [hzmaxeq]
    exact_mod_cast hzmax100
  have hpminmax : pmin ≤ pmax := hkmin pmax hpmax_mem
  unfold upperAnchored
  cases ou with
  | false =>
    rw [if_neg (by simp)]
    refine ⟨pyKeys_nodup_pySet _ _ hnd, ?_, ?_, ?_, ?_, pySet_ne_nil _ _ _⟩
    · refine keysMono_pySet_top hnd hmono ?_ ?_
      · intro p hp
        exact le_trans (hkmax p.1 (List.mem_map_of_mem Prod.fst hp)) hpmax100
      · intro p hp
        exact le_trans (hclosed rfl p hp) (by linarith)
    · intro r hr
      rcases mem_pySet_weak hr with rfl | hr'
      · exact Or.inr rfl
      · exact Or.inl hr'
    · intro k hk
      rcases mem_keys_pySet_cases hk with hk' | rfl
      · exact ⟨hkmin k hk', hk0 k hk'⟩
      · exact ⟨by linarith, by norm_num⟩
    · exact mem_keys_pySet _ _ _ _ hpmin_mem
  | true =>
    rw [if_pos rfl]
    by_cases hguard : pyGetD d1 pmax 0 < ub
    · rw [if_pos hguard]
      have hka : pmax ≤ ((pyInt (100 - 1 / 2 * (100 - pmax)) : ℤ) : ℚ) := by
        rw [hzmaxeq]
        exact anchor_upper_key_ge hzmax0 hzmax100
      have hvmax_mem : (pmax, pyGetD d1 pmax 0) ∈ d1 := pyGetD_mem hpmax_mem
      have hvall : ∀ r ∈ d1, r.2 ≤ pyGetD d1 pmax 0 := by
        intro r hr
        exact hmono r hr (pmax, pyGetD d1 pmax 0) hvmax_mem
          (hkmax r.1 (List.mem_map_of_mem Prod.fst hr))
      refine ⟨pyKeys_nodup_pySet _ _ hnd, ?_, ?_, ?_, ?_, pySet_ne_nil _ _ _⟩
      · refine keysMono_pySet_top hnd hmono ?_ ?_
        · intro p hp
          exact le_trans (hkmax p.1 (List.mem_map_of_mem Prod.fst hp)) hka
        · intro p hp
          exact le_trans (hvall p hp) (le_of_lt hguard)
      · intro r hr
        rcases mem_pySet_weak hr with rfl | hr'
        · exact Or.inr rfl
        · exact Or.inl hr'
      · intro k hk
        rcases mem_keys_pySet_cases hk with hk' | rfl
        · exact ⟨hkmin k hk', hk0 k hk'⟩
        · exact ⟨by linarith, by linarith⟩
      · exact mem_keys_pySet _ _ _ _ hpmin_mem
    · rw [if_neg hguard]
      refine ⟨hnd, hmono, fun r hr => Or.inl hr, fun k hk => ⟨hkmin k hk, hk0 k hk⟩,
        hpmin_mem, hne⟩

lemma lowerAnchored_good {d2 : List (ℚ × ℚ)} (ol : Bool) {ub lb pmin : ℚ}
    (hnd : (pyKeys d2).Nodup) (hmono : KeysMono d2) (hne : d2 ≠ [])
    (hk : ∀ k ∈ pyKeys d2, pmin ≤ k ∧ 0 ≤ k)
    (hpmin_mem : pmin ∈ pyKeys d2)
    (hzmin : ∃ z : ℤ, pmin = (z : ℚ) ∧ 0 ≤ z)
    (hclosed : ol = false → ∀ r ∈ d2, lb ≤ r.2)
    (hlbub : lb ≤ ub) :
    (pyKeys (lowerAnchored d2 ol lb pmin)).Nodup ∧
      KeysMono (lowerAnchored d2 ol lb pmin) ∧
      lowerAnchored d2 ol lb pmin ≠ [] := by
  obtain ⟨zmin, hzmineq, hzmin0⟩ := hzmin
  unfold lowerAnchored
  cases ol with
  | false =>
    rw [if_neg (by simp)]
    refine ⟨pyKeys_nodup_pySet _ _ hnd, ?_, pySet_ne_nil _ _ _⟩
    refine keysMono_pySet_bottom hnd hmono ?_ ?_
    · intro p hp
      exact (hk p.1 (List.mem_map_of_mem Prod.fst hp)).2
    · intro p hp
      exact hclosed rfl p hp
  | true =>
    rw [if_pos rfl]
    by_cases hguard : lb < pyGetD d2 pmin 0
    · rw [if_pos hguard]
      have hkb := anchor_lower_key_le hzmin0
      rw [← hzmineq] at hkb
      have hvmin_mem : (pmin, pyGetD d2 pmin 0) ∈ d2 := pyGetD_mem hpmin_mem
      have hvall : ∀ r ∈ d2, pyGetD d2 pmin 0 ≤ r.2 := by
        intro r hr
        exact hmono (pmin, pyGetD d2 pmin 0) hvmin_mem r hr
          (hk r.1 (List.mem_map_of_mem Prod.fst hr)).1
      refine ⟨pyKeys_nodup_pySet _ _ hnd, ?_, pySet_ne_nil _ _ _⟩
      refine keysMono_pySet_bottom hnd hmono ?_ ?_
      · intro p hp
        exact le_trans hkb.1 (hk p.1 (List.mem_map_of_mem Prod.fst hp)).1
      · intro p hp
        exact le_trans (le_of_lt hguard) (hvall p hp)
    · rw [if_neg hguard]
      exact ⟨hnd, hmono, hne⟩

lemma anchoredDict_good {pv : List (ℚ × ℚ)} {ou ol : Bool} {ub lb : ℚ}
    (hne : pv ≠ []) (hnd : (pyKeys pv).Nodup)
    (hkeys : ∀ p ∈ pv, ∃ z : ℤ, p.1 = (z : ℚ) ∧ 0 ≤ z ∧ z ≤ 100)
    (hmono : KeysMono pv) (hb : lb ≤ ub) :
    (pyKeys (anchoredDict pv ou ol ub lb)).Nodup ∧
      KeysMono (anchoredDict pv ou ol ub lb) ∧ anchoredDict pv ou ol ub lb ≠ [] := by
  have hkne : pyKeys pv ≠ [] := by
    unfold pyKeys
    intro hc
    exact hne (List.map_eq_nil_iff.mp hc)
  obtain ⟨hpmax_mem, hpmax_ub⟩ := pyMaxD_spec hkne
  obtain ⟨hpmin_mem, hpmin_lb⟩ := pyMinD_spec hkne
  have hkey_bounds : ∀ k ∈ pyKeys pv, ∃ z : ℤ, k = (z : ℚ) ∧ 0 ≤ z ∧ z ≤ 100 := by
    intro k hk
    obtain ⟨p, hp, rfl⟩ := List.mem_map.mp hk
    exact hkeys p hp
  have hkey0 : ∀ k ∈ pyKeys pv, 0 ≤ k := by
    intro k hk
    obtain ⟨z, rfl, hz0, _⟩ := hkey_bounds k hk
    exact_mod_cast hz0
  have hbuf0 : 0 ≤ bufferFor (ub - lb) := bufferFor_nonneg (by linarith)
  have hmm : lb + bufferFor (ub - lb) ≤ ub - bufferFor (ub - lb) := bufferFor_le hb
  have hd1keys : pyKeys (adjustedDict pv ou ol lb ub (bufferFor (ub - lb))) = pyKeys pv :=
    pyKeys_adjustedDict pv ou ol lb ub _
  have hd1nd : (pyKeys (adjustedDict pv ou ol lb ub (bufferFor (ub - lb)))).Nodup := by
    rw [hd1keys]
    exact hnd
  have hd1mono : KeysMono (adjustedDict pv ou ol lb ub (bufferFor (ub - lb))) :=
    keysMono_adjustedDict ou ol hmm hmono
  have hd1ne : adjustedDict pv ou ol lb ub (bufferFor (ub - lb)) ≠ [] := by
    unfold adjustedDict
    intro hc
    exact hne (List.map_eq_nil_iff.mp hc)
  obtain ⟨h2nd, h2mono, h2mem, h2keys, h2pmin, h2ne⟩ :=
    upperAnchored_good ou hd1nd hd1mono hd1ne
      (by rw [hd1keys]; exact hkey0)
      (by rw [hd1keys]; exact hpmax_ub)
      (by rw [hd1keys]; exact hpmin_lb)
      (by rw [hd1keys]; exact hpmax_mem)
      (by rw [hd1keys]; exact hpmin_mem)
      (hkey_bounds _ hpmax_mem)
      (by
        intro hou r hr
        obtain ⟨p, hp, rfl⟩ := mem_adjustedDict hr
        subst hou
        exact adjustBoundValue_le_upper ol hmm)
      hbuf0
  have h3 :=
    lowerAnchored_good ol h2nd h2mono h2ne h2keys h2pmin
      (by
        obtain ⟨z, hz, hz0, _⟩ := hkey_bounds _ hpmin_mem
        exact ⟨z, hz, hz0⟩)
      (by
        intro hol r hr
        rcases h2mem r hr with hr' | hub
        · obtain ⟨p, hp, rfl⟩ := mem_adjustedDict hr'
          subst hol
          exact le_trans (by linarith) (adjustBoundValue_ge_lower ou hmm)
        · rw [hub]
          exact hb)
      hb
  exact h3

set_option maxRecDepth 100000 in
set_option maxHeartbeats 1000000 in
/-- C1 counterexample: an accepted percentile map whose values decrease
with the percentile (which `extract_percentiles` can produce) makes
numeric CDF synthesis return a sequence that is not monotonically
non-decreasing: percentiles 10 and 90 mapped to values 50 and 20, with
closed bounds [0, 100] and a 5-point grid, yield
[0, 23/30, 1/10, 11/20, 1]. -/
theorem numeric_cdf_nonmonotone_counterexample :
    generate_continuous_cdf [(10, 50), (90, 20)] "numeric" false false 100 0 none 5
        (fun _ _ => 0) = .ok [0, 23/30, 1/10, 11/20, 1] ∧
      ¬ List.Chain' (· ≤ ·) [(0 : ℚ), 23/30, 1/10, 11/20, 1] := by
  constructor
  · with_unfolding_all decide
  · norm_num [List.chain'_cons]

/-- C1 (amended): numeric CDF synthesis returns a monotonically
non-decreasing sequence provided the percentile map has distinct
integer keys in [0, 100] whose values are non-decreasing in the key,
the bounds satisfy `lower_bound ≤ upper_bound`, and the grid produced
by `_generate_cdf_locations` is itself non-decreasing (always true for
linear scaling; for log scaling it depends on the exponentiation). For
value maps that decrease in the key the output can decrease (see the
counterexample). -/
theorem numeric_cdf_monotone (pv : List (ℚ × ℚ)) (question_type : String)
    (ou ol : Bool) (ub lb : ℚ) (zp : Option ℚ) (n : ℕ) (rpow : ℚ → ℚ → ℚ)
    (l : List ℚ)
    (hnd : (pyKeys pv).Nodup)
    (hkeys : ∀ p ∈ pv, ∃ z : ℤ, p.1 = (z : ℚ) ∧ 0 ≤ z ∧ z ≤ 100)
    (hmono : KeysMono pv)
    (hb : lb ≤ ub)
    (hgrid : List.Chain' (· ≤ ·) (generate_cdf_locations lb ub zp n rpow))
    (hok : generate_continuous_cdf pv question_type ou ol ub lb zp n rpow = .ok l) :
    List.Chain' (· ≤ ·) l := by
  have hne : pv ≠ [] := by
    intro hc
    rw [hc] at hok
    unfold generate_continuous_cdf at hok
    rw [if_pos rfl] at hok
    cases hok
  unfold generate_continuous_cdf at hok
  rw [if_neg hne] at hok
  injection hok with hok
  obtain ⟨h3nd, h3mono, h3ne⟩ := anchoredDict_good hne hnd hkeys hmono hb
  have hperm := pySortPairs_perm (anchoredDict pv ou ol ub lb)
  have hspnd : (pyKeys (pySortPairs (anchoredDict pv ou ol ub lb))).Nodup :=
    pyKeys_nodup_of_perm hperm.symm h3nd
  have hspmono : KeysMono (pySortPairs (anchoredDict pv ou ol ub lb)) :=
    keysMono_of_perm hperm.symm h3mono
  have hstrict := sorted_pairs_strict (pySortPairs_sorted _) hspnd
  have hval := sorted_pairs_val hstrict hspmono
  obtain ⟨hinvnd, hinvmono⟩ := invertedDict_props hstrict hval
  have hspne : pySortPairs (anchoredDict pv ou ol ub lb) ≠ [] := by
    intro hc
    rw [hc] at hperm
    exact h3ne hperm.nil_eq.symm
  have hinvne := invertedDict_ne_nil hspne
  have hperm2 := pySortPairs_perm (invertedDict (pySortPairs (anchoredDict pv ou ol ub lb)))
  have hsp2nd := pyKeys_nodup_of_perm hperm2.symm hinvnd
  have hsp2mono := keysMono_of_perm hperm2.symm hinvmono
  have hstrict2 := sorted_pairs_strict (pySortPairs_sorted _) hsp2nd
  have hval2 := sorted_pairs_val hstrict2 hsp2mono
  have hsp2ne :
      pySortPairs (invertedDict (pySortPairs (anchoredDict pv ou ol ub lb))) ≠ [] := by
    intro hc
    rw [hc] at hperm2
    exact hinvne hperm2.nil_eq.symm
  rw [← hok]
  unfold linear_interpolation
  rw [List.chain'_map]
  refine List.Chain'.imp ?_ hgrid
  intro a b hab
  exact liOne_mono hstrict2.chain' hval2.chain' hsp2ne hab

set_option maxRecDepth 100000 in
set_option maxHeartbeats 1000000 in
/-- Witness for C1 at a concrete input: a key-monotone three-point
percentile map with closed bounds [0, 100] and a 5-point linear grid. -/
theorem numeric_cdf_monotone_witness :
    generate_continuous_cdf [(10, 20), (50, 50), (90, 80)] "numeric" false false 100 0
        none 5 (fun _ _ => 0) = .ok [0, 1/6, 1/2, 5/6, 1] ∧
      List.Chain' (· ≤ ·) [(0 : ℚ), 1/6, 1/2, 5/6, 1] := by
  have hok : generate_continuous_cdf [(10, 20), (50, 50), (90, 80)] "numeric" false false
      100 0 none 5 (fun _ _ => 0) = .ok [0, 1/6, 1/2, 5/6, 1] := by
    with_unfolding_all decide
  refine ⟨hok, ?_⟩
  refine numeric_cdf_monotone [(10, 20), (50, 50), (90, 80)] "numeric" false false 100 0
    none 5 (fun _ _ => 0) [0, 1/6, 1/2, 5/6, 1] ?_ ?_ ?_ ?_ ?_ hok
  · with_unfolding_all decide
  · intro p hp
    rcases List.mem_cons.mp hp with rfl | hp
    · exact ⟨10, by norm_num, by norm_num, by norm_num⟩
    rcases List.mem_cons.mp hp with rfl | hp
    · exact ⟨50, by norm_num, by norm_num, by norm_num⟩
    rcases List.mem_cons.mp hp with rfl | hp
    · exact ⟨90, by norm_num, by norm_num, by norm_num⟩
    · exact absurd hp (List.not_mem_nil p)
  · with_unfolding_all decide
  · norm_num
  · have hgrid : generate_cdf_locations 0 100 none 5 (fun _ _ => 0) = [0, 25, 50, 75, 100] := by
      with_unfolding_all decide
    rw [hgrid]
    norm_num [List.chain'_cons]
